import Mathlib

/-!
# Verification of the FintechCheckAI hybrid RAG retrieval core

Shallow embedding of `backend/services/rag_service.py` (tokenizer, cosine
similarity, keyword / semantic / hybrid chunk retrieval, the Tower retrieval
orchestrator) and of `backend/agents/chunk_retriever.py`.

Modelling conventions:
* Python floats are modelled by real numbers (`ℝ`); because of this the score
  arithmetic (and the sort comparisons on scores) are noncomputable in Lean,
  while all structural parts (tokenization, dictionaries, list processing)
  are ordinary computable definitions.
* A chunk dict is modelled by the `Chunk` structure holding exactly the keys
  the retrieval core reads (`chunk_id`, `document_id`, `content`,
  `embedding`).  A missing key is `none`; an `embedding` value that is not a
  Python list is also modelled by `none`, since the code treats the two
  identically (`if not chunk_embedding or not isinstance(chunk_embedding,
  list): continue`).
* `str(hash(content))` (the fallback chunk identifier) is modelled injectively
  by tagging the content itself: identifiers live in `String ⊕ String`, with
  `Sum.inl` for a truthy `chunk_id` and `Sum.inr content` for the hash
  fallback.
* Python's `list.sort(key=..., reverse=True)` is a stable descending sort, a
  function uniquely determined by that description; it is modelled by
  Mathlib's stable `List.insertionSort` with the relation `scoreGE`.
* Python `dict`s (insertion ordered, last write wins) are modelled by
  association lists with `dictUpsert`; `set` union iteration order, which
  CPython leaves unspecified (hash dependent, though fixed within a process),
  is modelled deterministically as first-insertion order.
* `async` calls are modelled as direct calls; the collaborator effects of the
  orchestrator (the Tower chunk store, which can raise, and the OpenAI
  embedding provider, which returns `None` on any failure) are passed in as
  explicit parameters (`Except` / `Option`), so exceptional outcomes are
  explicit values.
-/

/-! ## Data model -/

/-- A retrievable chunk: the fields of the chunk dict that the retrieval core
reads.  `embedding = none` models both a missing `"embedding"` key and a
non-list value. -/
structure Chunk where
  chunk_id : Option String
  document_id : Option String
  content : String
  embedding : Option (List ℝ)

/-- A scored result dict: the input chunk's fields plus the score fields the
retrieval functions attach (`{**chunk, "score": ...}`).  Fields that a given
retrieval function does not attach stay `none`. -/
structure Scored where
  chunk : Chunk
  score : ℝ
  similarity : Option ℝ := none
  semantic_score : Option ℝ := none
  keyword_score : Option ℝ := none

/-- Identifier used to merge the keyword and semantic passes:
`chunk.get("chunk_id") or str(hash(chunk.get("content", "")))`.
`Sum.inl` is a truthy `chunk_id`, `Sum.inr` the content-hash fallback
(modelled injectively by the content itself). -/
abbrev ChunkKey := String ⊕ String

/-- The identifier of a chunk: its `chunk_id` unless that is absent or falsy
(`None` or `""`), in which case the hash of its content. -/
def chunkKey (c : Chunk) : ChunkKey :=
  match c.chunk_id with
  | some s => if s = "" then Sum.inr c.content else Sum.inl s
  | none => Sum.inr c.content

/-! ## Tokenizer (`_tokenize`) -/

/-- A character the regex `[a-z0-9]+` matches. -/
def isTokenChar (c : Char) : Bool :=
  decide (('a' ≤ c ∧ c ≤ 'z') ∨ ('0' ≤ c ∧ c ≤ '9'))

/-- Maximal runs of token characters (`re.findall(r"[a-z0-9]+", text)`),
with `acc` the reversed current run. -/
def tokenRuns : List Char → List Char → List String
  | [], acc => if acc.isEmpty then [] else [String.mk acc.reverse]
  | c :: cs, acc =>
    if isTokenChar c then tokenRuns cs (c :: acc)
    else if acc.isEmpty then tokenRuns cs []
    else String.mk acc.reverse :: tokenRuns cs []

/-- `_tokenize(text)`: the set of lowercase alphanumeric tokens of the
lowercased text (ASCII lowercasing; the claims do not depend on Unicode
case folding).  The `if token` filter of the source comprehension is kept. -/
def _tokenize (s : String) : Finset String :=
  ((tokenRuns (s.data.map Char.toLower) []).filter (fun t => ¬ t.isEmpty)).toFinset

/-! ## Stable descending sort on scores (`scored.sort(key=..., reverse=True)`) -/

/-- The sort relation: `a` may come before `b` when `a.score ≥ b.score`. -/
def scoreGE (a b : Scored) : Prop := b.score ≤ a.score

noncomputable instance : DecidableRel scoreGE :=
  fun a b => inferInstanceAs (Decidable (b.score ≤ a.score))

instance : IsTotal Scored scoreGE := ⟨fun a b => le_total b.score a.score⟩

instance : IsTrans Scored scoreGE := ⟨fun _ _ _ h1 h2 => le_trans h2 h1⟩

/-- Python's stable descending sort by the `"score"` field. -/
noncomputable def sortScoreDesc (l : List Scored) : List Scored :=
  l.insertionSort scoreGE

/-! ## Keyword retrieval (`retrieve_chunks_simple`, and the identical
`retrieve_chunks` of `tower/apps/rag-chunk-query/main.py`) -/

/-- The per-chunk score of the keyword pass: `0.0` for a chunk with no
tokens, otherwise `len(query_tokens & chunk_tokens) / max(len(query_tokens), 1)`. -/
noncomputable def keywordScore (query_tokens : Finset String) (chunk : Chunk) : ℝ :=
  let chunk_tokens := _tokenize chunk.content
  if chunk_tokens = ∅ then 0
  else ((query_tokens ∩ chunk_tokens).card : ℝ) / ((max query_tokens.card 1 : ℕ) : ℝ)

/-- `retrieve_chunks_simple(query, chunks, top_k)`: score every chunk by
token overlap with the query, sort descending (stably), return the first
`top_k`. -/
noncomputable def retrieve_chunks_simple (query : String) (chunks : List Chunk)
    (top_k : ℕ) : List Scored :=
  let query_tokens := _tokenize query
  let scored := chunks.map (fun chunk => { chunk := chunk, score := keywordScore query_tokens chunk })
  (sortScoreDesc scored).take top_k

/-! ## Cosine similarity (`_cosine_similarity`) -/

/-- `np.linalg.norm(v)`: the Euclidean norm. -/
noncomputable def npNorm (v : List ℝ) : ℝ :=
  Real.sqrt ((v.map (fun x => x * x)).sum)

/-- `np.dot(v1, v2)` on equal-length vectors. -/
def npDot (v1 v2 : List ℝ) : ℝ :=
  (List.zipWith (· * ·) v1 v2).sum

/-- `_cosine_similarity(vec1, vec2)`.  Totality of this definition models the
enclosing `try/except` (any failure returns `0.0`): every branch returns a
value.  Empty input returns `0.0`; unequal lengths are truncated to the
shorter; a zero norm returns `0.0`. -/
noncomputable def _cosine_similarity (vec1 vec2 : List ℝ) : ℝ :=
  if vec1.length = 0 ∨ vec2.length = 0 then 0
  else
    let min_len := min vec1.length vec2.length
    let v1 := if vec1.length ≠ vec2.length then vec1.take min_len else vec1
    let v2 := if vec1.length ≠ vec2.length then vec2.take min_len else vec2
    let dot_product := npDot v1 v2
    let norm1 := npNorm v1
    let norm2 := npNorm v2
    if norm1 = 0 ∨ norm2 = 0 then 0
    else dot_product / (norm1 * norm2)

/-! ## Semantic retrieval (`retrieve_chunks_semantic`) -/

/-- Python truthiness of an optional embedding vector: `some` of a nonempty
list. -/
def truthyEmb : Option (List ℝ) → Bool
  | some (_ :: _) => true
  | _ => false

/-- `retrieve_chunks_semantic(query_embedding, chunks, top_k)`: with a falsy
query embedding return `[]`; otherwise score every chunk that has a usable
embedding (a nonempty list) by cosine similarity to the query embedding,
skipping the others entirely, sort descending, return the first `top_k`. -/
noncomputable def retrieve_chunks_semantic (query_embedding : Option (List ℝ))
    (chunks : List Chunk) (top_k : ℕ) : List Scored :=
  match query_embedding with
  | some (q0 :: qs) =>
    let scored := chunks.filterMap (fun chunk =>
      match chunk.embedding with
      | some (x0 :: xs) =>
        let similarity := _cosine_similarity (q0 :: qs) (x0 :: xs)
        some { chunk := chunk, score := similarity, similarity := some similarity }
      | _ => none)
    (sortScoreDesc scored).take top_k
  | _ => []

/-! ## Python dicts as insertion-ordered association lists -/

/-- `m[k] = v` on a Python dict: overwrite in place when the key is present,
append otherwise. -/
def dictUpsert {α : Type} (m : List (ChunkKey × α)) (k : ChunkKey) (v : α) :
    List (ChunkKey × α) :=
  if m.any (fun p => p.1 = k) then
    m.map (fun p => if p.1 = k then (k, v) else p)
  else m ++ [(k, v)]

/-- `m.get(k)` as an option. -/
def dictGet? {α : Type} (m : List (ChunkKey × α)) (k : ChunkKey) : Option α :=
  (m.find? (fun p => p.1 = k)).map (fun p => p.2)

/-- `m.get(k, d)`. -/
def dictGetD {α : Type} (m : List (ChunkKey × α)) (k : ChunkKey) (d : α) : α :=
  (dictGet? m k).getD d

/-- `max(l)` on a nonempty Python list (the `[]` case is unreachable at every
call site, which guards with nonemptiness). -/
noncomputable def pythonMax : List ℝ → ℝ
  | [] => 0
  | x :: xs => xs.foldl max x

/-! ## Hybrid retrieval (`retrieve_chunks_hybrid`) -/

/-- The weight-normalization prelude of `retrieve_chunks_hybrid`: divide both
weights by their sum when that sum is positive, otherwise leave them
unchanged. -/
noncomputable def normalizeWeights (semantic_weight keyword_weight : ℝ) : ℝ × ℝ :=
  let total_weight := semantic_weight + keyword_weight
  if total_weight > 0 then
    (semantic_weight / total_weight, keyword_weight / total_weight)
  else (semantic_weight, keyword_weight)

/-- The score dict of a retrieval pass:
`{key(r): r["score"] for r in results}` built with insertion order and
last-write-wins. -/
def scoreDictOf (results : List Scored) : List (ChunkKey × ℝ) :=
  results.foldl (fun m r => dictUpsert m (chunkKey r.chunk) r.score) []

/-- Rescaling of a score dict to `[0,1]`: when the dict is nonempty and its
maximum value is positive, divide every value by that maximum; otherwise
leave the dict unchanged. -/
noncomputable def rescaleDict (m : List (ChunkKey × ℝ)) : List (ChunkKey × ℝ) :=
  if m ≠ [] then
    let mx := pythonMax (m.map (fun p => p.2))
    if mx > 0 then m.map (fun p => (p.1, p.2 / mx)) else m
  else m

/-- The union `set(semantic_scores.keys()) | set(keyword_scores.keys())`,
iterated in first-insertion order (semantic keys first, then the new keyword
keys). -/
def allChunkIds (semN kwN : List (ChunkKey × ℝ)) : List ChunkKey :=
  semN.map (fun p => p.1) ++
    ((kwN.map (fun p => p.1)).filter
      (fun k => !((semN.map (fun p => p.1)).any (fun x => x = k))))

/-- The combination loop of `retrieve_chunks_hybrid`: for every identifier in
the union, `combined = semantic_score * w.1 + keyword_score * w.2`, where the
semantic side is `semantic_scores.get(chunk_id, 0.0) if query_embedding else
0.0` and the keyword side is `keyword_scores.get(chunk_id, 0.0)`. -/
noncomputable def combineScores (truthy : Bool) (w : ℝ × ℝ)
    (semN kwN : List (ChunkKey × ℝ)) : List (ChunkKey × ℝ) :=
  (allChunkIds semN kwN).map (fun cid =>
    (cid, (if truthy then dictGetD semN cid 0 else 0) * w.1 +
      dictGetD kwN cid 0 * w.2))

/-- `chunk_map = {key(chunk): chunk for chunk in chunks}` (insertion ordered,
last write wins). -/
def chunkMapOf (chunks : List Chunk) : List (ChunkKey × Chunk) :=
  chunks.foldl (fun m c => dictUpsert m (chunkKey c) c) []

/-- The map-back loop of `retrieve_chunks_hybrid`: for every `(chunk_id,
score)` of the combined dict, when `chunk_id` is a key of `chunk_map`, emit
the mapped chunk's fields plus `score`, `semantic_score` (`None` when the
query embedding is falsy) and `keyword_score`. -/
noncomputable def mapBackChunks (truthy : Bool) (semN kwN : List (ChunkKey × ℝ))
    (chunk_map : List (ChunkKey × Chunk)) (combined : List (ChunkKey × ℝ)) :
    List Scored :=
  combined.filterMap (fun p =>
    (dictGet? chunk_map p.1).map (fun c =>
      { chunk := c, score := p.2,
        semantic_score := if truthy then some (dictGetD semN p.1 0) else none,
        keyword_score := some (dictGetD kwN p.1 0) }))

/-- `retrieve_chunks_hybrid(query, query_embedding, chunks, top_k,
semantic_weight, keyword_weight)`: normalize the weights, run the semantic
pass (only with a truthy query embedding) and the keyword pass over all
chunks, rescale each score dict by its own maximum, linearly combine over the
union of identifiers, map identifiers back to chunks (last occurrence wins),
sort descending, return the first `top_k`. -/
noncomputable def retrieve_chunks_hybrid (query : String)
    (query_embedding : Option (List ℝ)) (chunks : List Chunk) (top_k : ℕ)
    (semantic_weight keyword_weight : ℝ) : List Scored :=
  let w := normalizeWeights semantic_weight keyword_weight
  let semantic_scores : List (ChunkKey × ℝ) :=
    if truthyEmb query_embedding then
      scoreDictOf (retrieve_chunks_semantic query_embedding chunks chunks.length)
    else []
  let keyword_scores : List (ChunkKey × ℝ) :=
    scoreDictOf (retrieve_chunks_simple query chunks chunks.length)
  let semantic_scores := rescaleDict semantic_scores
  let keyword_scores := rescaleDict keyword_scores
  let combined_scores := combineScores (truthyEmb query_embedding) w
    semantic_scores keyword_scores
  let scored_chunks := mapBackChunks (truthyEmb query_embedding)
    semantic_scores keyword_scores (chunkMapOf chunks) combined_scores
  (sortScoreDesc scored_chunks).take top_k

theorem retrieve_chunks_hybrid_def (query : String)
    (query_embedding : Option (List ℝ)) (chunks : List Chunk) (top_k : ℕ)
    (semantic_weight keyword_weight : ℝ) :
    retrieve_chunks_hybrid query query_embedding chunks top_k semantic_weight
        keyword_weight =
      (sortScoreDesc (mapBackChunks (truthyEmb query_embedding)
        (rescaleDict (if truthyEmb query_embedding then
          scoreDictOf (retrieve_chunks_semantic query_embedding chunks chunks.length)
          else []))
        (rescaleDict (scoreDictOf (retrieve_chunks_simple query chunks chunks.length)))
        (chunkMapOf chunks)
        (combineScores (truthyEmb query_embedding)
          (normalizeWeights semantic_weight keyword_weight)
          (rescaleDict (if truthyEmb query_embedding then
            scoreDictOf (retrieve_chunks_semantic query_embedding chunks chunks.length)
            else []))
          (rescaleDict (scoreDictOf (retrieve_chunks_simple query chunks chunks.length)))))).take
        top_k := rfl

/-! ## Retrieval orchestrator (`retrieve_chunks_from_tower`) and the agent
(`backend/agents/chunk_retriever.py retrieve_chunks`) -/

/-- The `search_method` literal of the orchestrator. -/
inductive SearchMethod where
  | keyword
  | semantic
  | hybrid
deriving DecidableEq

/-- `retrieve_chunks_from_tower(document_id, query, top_k, search_method,
...)`.  Collaborator effects are explicit parameters: `towerAvailable` is
`TOWER_RAG_AVAILABLE`; `readAll` is the outcome of building the
`TowerChunkStore` and calling `store.read_all()` inside the `try` block (an
`Except.error` models any exception raised there, which the `except` clause
converts to `[]`); `query_embedding` is the outcome of
`_get_query_embedding(query)`, which returns `None` rather than raising;
`semantic_weight` / `keyword_weight` are the configured weights.  A truthy
`document_id` (a nonempty string) scopes the chunk set before scoring; the
method then dispatches to the keyword / semantic / hybrid retriever, falling
back to keyword retrieval when the embedding is falsy. -/
noncomputable def retrieve_chunks_from_tower (document_id query : String)
    (top_k : ℕ) (search_method : SearchMethod) (towerAvailable : Bool)
    (readAll : Except String (List Chunk))
    (query_embedding : Option (List ℝ)) (semantic_weight keyword_weight : ℝ) :
    List Scored :=
  if towerAvailable = false then []
  else
    match readAll with
    | Except.error _ => []
    | Except.ok all_chunks =>
      let filtered_chunks :=
        if document_id ≠ "" then
          all_chunks.filter (fun chunk => chunk.document_id = some document_id)
        else all_chunks
      match search_method with
      | SearchMethod.keyword => retrieve_chunks_simple query filtered_chunks top_k
      | SearchMethod.semantic =>
        if truthyEmb query_embedding = false then
          retrieve_chunks_simple query filtered_chunks top_k
        else retrieve_chunks_semantic query_embedding filtered_chunks top_k
      | SearchMethod.hybrid =>
        if truthyEmb query_embedding = false then
          retrieve_chunks_simple query filtered_chunks top_k
        else
          retrieve_chunks_hybrid query query_embedding filtered_chunks top_k
            semantic_weight keyword_weight

/-- Python truthiness of the agent's optional `document_id` string. -/
def truthyStr : Option String → Bool
  | some s => s ≠ ""
  | none => false

/-- `backend/agents/chunk_retriever.py retrieve_chunks(claim, document_id,
company_id, top_k)`: with a truthy `document_id`, query the Tower orchestrator
(method defaulting to hybrid) inside a `try` block and return its chunks when
nonempty; otherwise (no `document_id`, empty result, or an exception, which
the model's total orchestrator already absorbs) return `[]`. -/
noncomputable def agent_retrieve_chunks (claim : String)
    (document_id : Option String) (top_k : ℕ) (towerAvailable : Bool)
    (readAll : Except String (List Chunk))
    (query_embedding : Option (List ℝ)) (semantic_weight keyword_weight : ℝ) :
    List Scored :=
  if truthyStr document_id then
    let chunks := retrieve_chunks_from_tower (document_id.getD "") claim top_k
      SearchMethod.hybrid towerAvailable readAll query_embedding
      semantic_weight keyword_weight
    if chunks.isEmpty then [] else chunks
  else []

/-! ## Basic lemmas about the sort and the keyword score -/

theorem sortScoreDesc_perm (l : List Scored) : (sortScoreDesc l).Perm l :=
  List.perm_insertionSort scoreGE l

theorem sortScoreDesc_length (l : List Scored) :
    (sortScoreDesc l).length = l.length :=
  (sortScoreDesc_perm l).length_eq

theorem sortScoreDesc_sorted (l : List Scored) :
    (sortScoreDesc l).Sorted scoreGE :=
  List.sorted_insertionSort scoreGE l

theorem sortScoreDesc_eq_of_sorted {l : List Scored} (h : l.Sorted scoreGE) :
    sortScoreDesc l = l :=
  List.Sorted.insertionSort_eq h

theorem mem_of_mem_sortScoreDesc_take {e : Scored} {l : List Scored} {k : ℕ}
    (h : e ∈ (sortScoreDesc l).take k) : e ∈ l :=
  (sortScoreDesc_perm l).mem_iff.mp (List.mem_of_mem_take h)

theorem keywordScore_eq (qt : Finset String) (c : Chunk) :
    keywordScore qt c =
      ((qt ∩ _tokenize c.content).card : ℝ) / ((max qt.card 1 : ℕ) : ℝ) := by
  unfold keywordScore
  by_cases h : _tokenize c.content = ∅
  · simp [h]
  · simp [h]

theorem keywordScore_nonneg (qt : Finset String) (c : Chunk) :
    0 ≤ keywordScore qt c := by
  rw [keywordScore_eq]
  positivity

theorem keywordScore_le_one (qt : Finset String) (c : Chunk) :
    keywordScore qt c ≤ 1 := by
  rw [keywordScore_eq]
  rw [div_le_one (by positivity)]
  have h1 : (qt ∩ _tokenize c.content).card ≤ qt.card :=
    Finset.card_le_card Finset.inter_subset_left
  have h2 : qt.card ≤ max qt.card 1 := le_max_left _ _
  exact_mod_cast le_trans h1 h2

theorem mem_retrieve_chunks_simple {e : Scored} {query : String}
    {chunks : List Chunk} {k : ℕ} (h : e ∈ retrieve_chunks_simple query chunks k) :
    ∃ c ∈ chunks, e = { chunk := c, score := keywordScore (_tokenize query) c } := by
  unfold retrieve_chunks_simple at h
  have := mem_of_mem_sortScoreDesc_take h
  rcases List.mem_map.mp this with ⟨c, hc, rfl⟩
  exact ⟨c, hc, rfl⟩

/-! ## C2: the keyword retrieval contract -/

theorem sorted_take_sortScoreDesc (l : List Scored) (k : ℕ) :
    ((sortScoreDesc l).take k).Sorted scoreGE :=
  (sortScoreDesc_sorted l).sublist (List.take_sublist k (sortScoreDesc l))

theorem retrieve_chunks_simple_def (query : String) (chunks : List Chunk) (k : ℕ) :
    retrieve_chunks_simple query chunks k =
      (sortScoreDesc (chunks.map (fun chunk =>
        { chunk := chunk, score := keywordScore (_tokenize query) chunk }))).take k := rfl

/-- C2.  For every query string `Q`, chunk list `C` and `top_k = k`, keyword
retrieval returns a descending-sorted list of exactly `min k |C|` scored
chunks; each carries `score = |tokens(Q) ∩ tokens(content)| / max (|tokens Q|) 1`,
which lies in `[0,1]`; and when `k ≥ |C|` every chunk of `C` is returned. -/
theorem retrieve_chunks_simple_contract (query : String) (chunks : List Chunk) (k : ℕ) :
    (retrieve_chunks_simple query chunks k).length = min k chunks.length ∧
    (retrieve_chunks_simple query chunks k).Sorted scoreGE ∧
    (∀ e ∈ retrieve_chunks_simple query chunks k,
      e.score = ((_tokenize query ∩ _tokenize e.chunk.content).card : ℝ) /
          ((max (_tokenize query).card 1 : ℕ) : ℝ) ∧
        0 ≤ e.score ∧ e.score ≤ 1) ∧
    (chunks.length ≤ k →
      ((retrieve_chunks_simple query chunks k).map (fun e => e.chunk)).Perm chunks) := by
  refine ⟨?_, ?_, ?_, ?_⟩
  · rw [retrieve_chunks_simple_def]
    simp [List.length_take, sortScoreDesc_length]
  · exact sorted_take_sortScoreDesc _ _
  · intro e he
    rcases mem_retrieve_chunks_simple he with ⟨c, _, rfl⟩
    refine ⟨?_, keywordScore_nonneg _ _, keywordScore_le_one _ _⟩
    exact keywordScore_eq _ _
  · intro hk
    rw [retrieve_chunks_simple_def]
    rw [List.take_of_length_le (by simpa [sortScoreDesc_length] using hk)]
    have h1 := (sortScoreDesc_perm (chunks.map (fun chunk =>
      ({ chunk := chunk, score := keywordScore (_tokenize query) chunk } : Scored)))).map
        (fun e : Scored => e.chunk)
    rw [List.map_map] at h1
    have h2 : ((fun e : Scored => e.chunk) ∘ fun chunk =>
        ({ chunk := chunk, score := keywordScore (_tokenize query) chunk } : Scored)) = id := rfl
    rw [h2, List.map_id] at h1
    exact h1

/-! ## C9: keyword retrieval on the empty query -/

theorem tokenize_empty_string : _tokenize "" = ∅ := rfl

theorem keywordScore_empty_query (c : Chunk) : keywordScore ∅ c = 0 := by
  rw [keywordScore_eq]
  simp

/-- C9.  Keyword retrieval with the empty query returns all chunks of `C` in
their original order (truncated to `k`), each with score exactly `0`; the
empty query yields an empty token set, the overlap is `0`, and the
denominator is floored to `1`. -/
theorem retrieve_chunks_simple_empty_query (chunks : List Chunk) (k : ℕ) :
    (retrieve_chunks_simple "" chunks k).map (fun e => e.chunk) = chunks.take k ∧
    ∀ e ∈ retrieve_chunks_simple "" chunks k, e.score = 0 := by
  have hscore : ∀ c : Chunk, keywordScore (_tokenize "") c = 0 := by
    intro c; rw [tokenize_empty_string]; exact keywordScore_empty_query c
  constructor
  · rw [retrieve_chunks_simple_def]
    rw [sortScoreDesc_eq_of_sorted]
    · rw [← List.map_take, List.map_map]
      have : ((fun e : Scored => e.chunk) ∘ fun chunk =>
          ({ chunk := chunk, score := keywordScore (_tokenize "") chunk } : Scored)) = id := by
        funext c; rfl
      rw [this, List.map_id]
    · apply List.pairwise_of_forall_mem_list
      intro a ha b hb
      rcases List.mem_map.mp ha with ⟨c1, _, rfl⟩
      rcases List.mem_map.mp hb with ⟨c2, _, rfl⟩
      show keywordScore (_tokenize "") c2 ≤ keywordScore (_tokenize "") c1
      rw [hscore c1, hscore c2]
  · intro e he
    rcases mem_retrieve_chunks_simple he with ⟨c, _, rfl⟩
    exact hscore c

/-! ## C5: cosine similarity safety -/

theorem cosine_empty_left (v2 : List ℝ) : _cosine_similarity [] v2 = 0 := by
  unfold _cosine_similarity
  simp

theorem cosine_empty_right (v1 : List ℝ) : _cosine_similarity v1 [] = 0 := by
  unfold _cosine_similarity
  simp

theorem cosine_eq_length (w1 w2 : List ℝ) (h : w1.length = w2.length)
    (h1 : w1 ≠ []) :
    _cosine_similarity w1 w2 =
      if npNorm w1 = 0 ∨ npNorm w2 = 0 then 0
      else npDot w1 w2 / (npNorm w1 * npNorm w2) := by
  have hl1 : w1.length ≠ 0 := fun hz => h1 (List.eq_nil_of_length_eq_zero hz)
  have hcond : ¬ (w1.length = 0 ∨ w2.length = 0) := by omega
  have htr : ¬ (w1.length ≠ w2.length) := by omega
  unfold _cosine_similarity
  rw [if_neg hcond]
  simp only [if_neg htr]

theorem cosine_ne_length (v1 v2 : List ℝ) (h1 : v1 ≠ []) (h2 : v2 ≠ [])
    (hne : v1.length ≠ v2.length) :
    _cosine_similarity v1 v2 =
      if npNorm (v1.take (min v1.length v2.length)) = 0 ∨
          npNorm (v2.take (min v1.length v2.length)) = 0 then 0
      else
        npDot (v1.take (min v1.length v2.length)) (v2.take (min v1.length v2.length)) /
          (npNorm (v1.take (min v1.length v2.length)) *
            npNorm (v2.take (min v1.length v2.length))) := by
  have hl1 : v1.length ≠ 0 := fun hz => h1 (List.eq_nil_of_length_eq_zero hz)
  have hl2 : v2.length ≠ 0 := fun hz => h2 (List.eq_nil_of_length_eq_zero hz)
  have hcond : ¬ (v1.length = 0 ∨ v2.length = 0) := by omega
  unfold _cosine_similarity
  rw [if_neg hcond]
  simp only [if_pos hne]

theorem take_min_ne_nil_left {v1 v2 : List ℝ} (h1 : v1 ≠ []) (h2 : v2 ≠ []) :
    v1.take (min v1.length v2.length) ≠ [] := by
  have hl1 : v1.length ≠ 0 := fun hz => h1 (List.eq_nil_of_length_eq_zero hz)
  have hl2 : v2.length ≠ 0 := fun hz => h2 (List.eq_nil_of_length_eq_zero hz)
  intro hemp
  have := congrArg List.length hemp
  rw [List.length_take] at this
  simp only [List.length_nil] at this
  omega

theorem take_min_length_eq {v1 v2 : List ℝ} :
    (v1.take (min v1.length v2.length)).length =
      (v2.take (min v1.length v2.length)).length := by
  rw [List.length_take, List.length_take]
  omega

theorem cosine_truncate (v1 v2 : List ℝ) :
    _cosine_similarity v1 v2 =
      _cosine_similarity (v1.take (min v1.length v2.length))
        (v2.take (min v1.length v2.length)) := by
  rcases eq_or_ne v1 [] with rfl | h1
  · rw [cosine_empty_left]
    rw [show min ([] : List ℝ).length v2.length = 0 from by simp]
    simp [cosine_empty_left]
  rcases eq_or_ne v2 [] with rfl | h2
  · rw [cosine_empty_right]
    rw [show min v1.length ([] : List ℝ).length = 0 from by simp]
    simp [cosine_empty_right]
  by_cases hlen : v1.length = v2.length
  · rw [show min v1.length v2.length = v1.length from by omega]
    rw [List.take_length, hlen, List.take_length]
  · rw [cosine_ne_length v1 v2 h1 h2 hlen]
    rw [cosine_eq_length _ _ take_min_length_eq (take_min_ne_nil_left h1 h2)]

theorem cosine_zero_norm (v1 v2 : List ℝ)
    (h : npNorm (v1.take (min v1.length v2.length)) = 0 ∨
      npNorm (v2.take (min v1.length v2.length)) = 0) :
    _cosine_similarity v1 v2 = 0 := by
  rw [cosine_truncate]
  rcases eq_or_ne v1 [] with rfl | h1
  · rw [List.take_nil, cosine_empty_left]
  rcases eq_or_ne v2 [] with rfl | h2
  · rw [List.take_nil, cosine_empty_right]
  rw [cosine_eq_length _ _ take_min_length_eq (take_min_ne_nil_left h1 h2)]
  exact if_pos h

/-- C5.  `_cosine_similarity` is total (the definition returns a value on
every input, modelling the `try/except` that converts any failure into
`0.0`): on an empty vector it returns `0`; in general it equals itself
applied to the two vectors truncated to the shorter length (so a length
mismatch is handled by truncation); and whenever either truncated vector has
zero Euclidean norm the result is `0`. -/
theorem cosine_similarity_safety (v1 v2 : List ℝ) :
    _cosine_similarity [] v2 = 0 ∧
    _cosine_similarity v1 [] = 0 ∧
    _cosine_similarity v1 v2 =
      _cosine_similarity (v1.take (min v1.length v2.length))
        (v2.take (min v1.length v2.length)) ∧
    ((npNorm (v1.take (min v1.length v2.length)) = 0 ∨
      npNorm (v2.take (min v1.length v2.length)) = 0) →
      _cosine_similarity v1 v2 = 0) :=
  ⟨cosine_empty_left v2, cosine_empty_right v1, cosine_truncate v1 v2,
    cosine_zero_norm v1 v2⟩

/-! ## C4: semantic retrieval drops unusable embeddings, empty query embedding -/

theorem retrieve_chunks_semantic_cons (q0 : ℝ) (qs : List ℝ)
    (chunks : List Chunk) (k : ℕ) :
    retrieve_chunks_semantic (some (q0 :: qs)) chunks k =
      (sortScoreDesc (chunks.filterMap (fun chunk =>
        match chunk.embedding with
        | some (x0 :: xs) =>
          some { chunk := chunk,
                 score := _cosine_similarity (q0 :: qs) (x0 :: xs),
                 similarity := some (_cosine_similarity (q0 :: qs) (x0 :: xs)) }
        | _ => none))).take k := rfl

/-- C4.  Semantic retrieval silently drops every chunk whose embedding is
missing (or not a list: both modelled by `none`) or empty: every returned
entry has a nonempty embedding, and a chunk list with no usable embedding
yields `[]`.  A `None` or empty query embedding yields `[]` rather than an
error. -/
theorem retrieve_chunks_semantic_contract (query_embedding : Option (List ℝ))
    (chunks : List Chunk) (k : ℕ) :
    ((∀ c ∈ chunks, ∀ l, c.embedding = some l → l = []) →
      retrieve_chunks_semantic query_embedding chunks k = []) ∧
    (query_embedding = none ∨ query_embedding = some [] →
      retrieve_chunks_semantic query_embedding chunks k = []) ∧
    (∀ e ∈ retrieve_chunks_semantic query_embedding chunks k,
      ∃ l, e.chunk.embedding = some l ∧ l ≠ []) := by
  match query_embedding with
  | none => exact ⟨fun _ => rfl, fun _ => rfl, fun e he => absurd he (by simp [retrieve_chunks_semantic])⟩
  | some [] => exact ⟨fun _ => rfl, fun _ => rfl, fun e he => absurd he (by simp [retrieve_chunks_semantic])⟩
  | some (q0 :: qs) =>
    refine ⟨?_, ?_, ?_⟩
    · intro hall
      rw [retrieve_chunks_semantic_cons]
      have hnil : (chunks.filterMap (fun chunk =>
          match chunk.embedding with
          | some (x0 :: xs) =>
            some ({ chunk := chunk,
                    score := _cosine_similarity (q0 :: qs) (x0 :: xs),
                    similarity := some (_cosine_similarity (q0 :: qs) (x0 :: xs)) } : Scored)
          | _ => none)) = [] := by
        rw [List.filterMap_eq_nil_iff]
        intro c hc
        rcases hemb : c.embedding with _ | l
        · simp
        · rcases l with _ | ⟨x, xs⟩
          · simp
          · exact absurd (hall c hc (x :: xs) hemb) (by simp)
      rw [hnil]
      simp [sortScoreDesc, List.insertionSort]
    · rintro (h | h) <;> exact absurd h (by simp)
    · intro e he
      rw [retrieve_chunks_semantic_cons] at he
      have := mem_of_mem_sortScoreDesc_take he
      rcases List.mem_filterMap.mp this with ⟨c, _, hc⟩
      rcases hemb : c.embedding with _ | l
      · rw [hemb] at hc; simp at hc
      · rcases l with _ | ⟨x, xs⟩
        · rw [hemb] at hc; simp at hc
        · rw [hemb] at hc
          simp only [Option.some.injEq] at hc
          refine ⟨x :: xs, ?_, by simp⟩
          rw [← hc]
          exact hemb

/-! ## Association-list (Python dict) lemmas -/

theorem dictGet?_nil {α : Type} (k : ChunkKey) :
    dictGet? ([] : List (ChunkKey × α)) k = none := rfl

theorem dictGet?_cons {α : Type} (p : ChunkKey × α) (m : List (ChunkKey × α))
    (k : ChunkKey) :
    dictGet? (p :: m) k = if p.1 = k then some p.2 else dictGet? m k := by
  by_cases h : p.1 = k
  · unfold dictGet?
    rw [List.find?_cons_of_pos _ (by simp [h])]
    simp [h]
  · unfold dictGet?
    rw [List.find?_cons_of_neg _ (by simp [h])]
    simp [h, dictGet?]

theorem dictGet?_map_overwrite {α : Type} (m : List (ChunkKey × α))
    (k : ChunkKey) (v : α) (κ : ChunkKey) (h : κ ≠ k) :
    dictGet? (m.map (fun p => if p.1 = k then (k, v) else p)) κ = dictGet? m κ := by
  induction m with
  | nil => rfl
  | cons p m ih =>
    rw [List.map_cons, dictGet?_cons, dictGet?_cons]
    by_cases hp : p.1 = k
    · rw [if_pos hp]
      have h1 : ((k, v) : ChunkKey × α).1 = κ ↔ False := by simp [Ne.symm h]
      have h2 : p.1 = κ ↔ False := by simp [hp, Ne.symm h]
      simp only [h1, h2, if_false, ih]
    · rw [if_neg hp, ih]

theorem dictGet?_upsert {α : Type} (m : List (ChunkKey × α)) (k : ChunkKey)
    (v : α) (κ : ChunkKey) :
    dictGet? (dictUpsert m k v) κ = if κ = k then some v else dictGet? m κ := by
  induction m with
  | nil =>
    rw [show dictUpsert ([] : List (ChunkKey × α)) k v = [(k, v)] from rfl]
    rw [dictGet?_cons]
    by_cases h : κ = k
    · simp [h]
    · simp [h, Ne.symm h, dictGet?_nil]
  | cons p m ih =>
    by_cases hp : p.1 = k
    · have hany : (p :: m).any (fun q => decide (q.1 = k)) = true := by
        simp [hp]
      unfold dictUpsert
      rw [if_pos hany, List.map_cons, if_pos hp, dictGet?_cons]
      by_cases hκ : κ = k
      · simp [hκ]
      · have : ((k, v) : ChunkKey × α).1 = κ ↔ False := by simp [Ne.symm hκ]
        simp only [this, if_false, if_neg hκ]
        rw [dictGet?_map_overwrite m k v κ hκ, dictGet?_cons]
        have : p.1 = κ ↔ False := by simp [hp, Ne.symm hκ]
        simp [this]
    · by_cases hm : m.any (fun q => decide (q.1 = k)) = true
      · have hany : (p :: m).any (fun q => decide (q.1 = k)) = true := by
          simp only [List.any_cons, hm, Bool.or_true]
        have hupm : dictUpsert m k v = m.map (fun q => if q.1 = k then (k, v) else q) := by
          unfold dictUpsert
          rw [if_pos hm]
        unfold dictUpsert
        rw [if_pos hany, List.map_cons, if_neg hp, dictGet?_cons, dictGet?_cons]
        by_cases hκ : κ = k
        · have hpκ : p.1 = κ ↔ False := by simp [hp, hκ]
          simp only [hpκ, if_false, if_pos hκ]
          rw [← hupm, ih]
          simp [hκ]
        · by_cases hpκ : p.1 = κ
          · simp [hpκ, hκ]
          · simp only [hpκ, if_false, if_neg hκ]
            rw [← hupm, ih]
            simp [hκ]
      · have hany : (p :: m).any (fun q => decide (q.1 = k)) = false := by
          simp only [List.any_cons, Bool.or_eq_false_iff]
          refine ⟨by simp [hp], ?_⟩
          simp only [Bool.not_eq_true] at hm
          exact hm
        have hupm : dictUpsert m k v = m ++ [(k, v)] := by
          unfold dictUpsert
          rw [if_neg (by simp [hm])]
        unfold dictUpsert
        rw [if_neg (by simp [hany]), List.cons_append, dictGet?_cons]
        by_cases hκ : κ = k
        · have hpκ : p.1 = κ ↔ False := by simp [hp, hκ]
          simp only [hpκ, if_false, if_pos hκ]
          rw [← hupm, ih]
          simp [hκ]
        · by_cases hpκ : p.1 = κ
          · simp [hpκ, hκ, dictGet?_cons]
          · simp only [hpκ, if_false, if_neg hκ]
            rw [← hupm, ih]
            simp [hκ, dictGet?_cons, hpκ]

theorem mem_of_dictGet?_eq_some {α : Type} {m : List (ChunkKey × α)}
    {k : ChunkKey} {v : α} (h : dictGet? m k = some v) : (k, v) ∈ m := by
  unfold dictGet? at h
  rcases ho : m.find? (fun p => decide (p.1 = k)) with _ | p
  · rw [ho] at h
    simp at h
  · rw [ho] at h
    have h2 : p.2 = v := by simpa using h
    have hmem := List.mem_of_find?_eq_some ho
    have hpred := List.find?_some ho
    simp only [decide_eq_true_eq] at hpred
    have : p = (k, v) := by
      rcases p with ⟨p1, p2⟩
      simp only at hpred h2
      rw [hpred, h2]
    rw [← this]
    exact hmem

theorem mem_dictUpsert_pred {α : Type} {P : ChunkKey × α → Prop}
    {m : List (ChunkKey × α)} {k : ChunkKey} {v : α}
    (hm : ∀ p ∈ m, P p) (hkv : P (k, v)) : ∀ p ∈ dictUpsert m k v, P p := by
  intro p hp
  unfold dictUpsert at hp
  by_cases h : (m.any fun q => decide (q.1 = k)) = true
  · rw [if_pos h] at hp
    rcases List.mem_map.mp hp with ⟨q, hq, rfl⟩
    by_cases hqk : q.1 = k
    · rw [if_pos hqk]
      exact hkv
    · rw [if_neg hqk]
      exact hm q hq
  · rw [if_neg h] at hp
    rcases List.mem_append.mp hp with hl | hr
    · exact hm p hl
    · rcases List.mem_singleton.mp hr with rfl
      exact hkv

theorem foldl_upsert_pred {α β : Type} (f : β → ChunkKey) (g : β → α)
    (P : ChunkKey × α → Prop) (l : List β) :
    ∀ m0 : List (ChunkKey × α), (∀ p ∈ m0, P p) → (∀ b ∈ l, P (f b, g b)) →
    ∀ p ∈ l.foldl (fun m b => dictUpsert m (f b) (g b)) m0, P p := by
  induction l with
  | nil => intro m0 hm0 _ p hp; exact hm0 p hp
  | cons b l ih =>
    intro m0 hm0 hl p hp
    rw [List.foldl_cons] at hp
    exact ih (dictUpsert m0 (f b) (g b))
      (mem_dictUpsert_pred hm0 (hl b (List.mem_cons_self b l)))
      (fun b' hb' => hl b' (List.mem_cons_of_mem b hb')) p hp

theorem any_key_iff {α : Type} (m : List (ChunkKey × α)) (k : ChunkKey) :
    (m.any fun p => decide (p.1 = k)) = true ↔ k ∈ m.map (fun p => p.1) := by
  rw [List.any_eq_true]
  constructor
  · rintro ⟨p, hp, hpd⟩
    simp only [decide_eq_true_eq] at hpd
    exact List.mem_map.mpr ⟨p, hp, hpd⟩
  · intro hk
    rcases List.mem_map.mp hk with ⟨p, hp, hpk⟩
    exact ⟨p, hp, by simp [hpk]⟩

theorem dictKeys_upsert_of_mem {α : Type} (m : List (ChunkKey × α))
    (k : ChunkKey) (v : α) (h : (m.any fun p => decide (p.1 = k)) = true) :
    (dictUpsert m k v).map (fun p => p.1) = m.map (fun p => p.1) := by
  unfold dictUpsert
  rw [if_pos h, List.map_map]
  apply List.map_congr_left
  intro p _
  by_cases hpk : p.1 = k
  · simp [hpk]
  · simp [hpk]

theorem dictKeys_upsert_of_not_mem {α : Type} (m : List (ChunkKey × α))
    (k : ChunkKey) (v : α) (h : (m.any fun p => decide (p.1 = k)) = false) :
    (dictUpsert m k v).map (fun p => p.1) = m.map (fun p => p.1) ++ [k] := by
  unfold dictUpsert
  rw [if_neg (by simp [h]), List.map_append]
  rfl

theorem nodup_keys_upsert {α : Type} (m : List (ChunkKey × α)) (k : ChunkKey)
    (v : α) (h : (m.map (fun p => p.1)).Nodup) :
    ((dictUpsert m k v).map (fun p => p.1)).Nodup := by
  by_cases hk : (m.any fun p => decide (p.1 = k)) = true
  · rw [dictKeys_upsert_of_mem m k v hk]
    exact h
  · rw [dictKeys_upsert_of_not_mem m k v (by simp only [Bool.not_eq_true] at hk; exact hk)]
    have hnk : k ∉ m.map (fun p => p.1) := fun hmem => hk ((any_key_iff m k).mpr hmem)
    simp [List.nodup_append, h, hnk]

theorem foldl_upsert_nodup_keys {α β : Type} (f : β → ChunkKey) (g : β → α)
    (l : List β) :
    ∀ m0 : List (ChunkKey × α), (m0.map (fun p => p.1)).Nodup →
    ((l.foldl (fun m b => dictUpsert m (f b) (g b)) m0).map (fun p => p.1)).Nodup := by
  induction l with
  | nil => intro m0 h; exact h
  | cons b l ih =>
    intro m0 h
    rw [List.foldl_cons]
    exact ih _ (nodup_keys_upsert m0 (f b) (g b) h)

theorem foldl_max_ge {l : List ℝ} {a : ℝ} : a ≤ l.foldl max a ∧ ∀ x ∈ l, x ≤ l.foldl max a := by
  induction l generalizing a with
  | nil => exact ⟨le_refl a, by simp⟩
  | cons y ys ih =>
    rw [List.foldl_cons]
    refine ⟨le_trans (le_max_left a y) ih.1, ?_⟩
    intro x hx
    rcases List.mem_cons.mp hx with rfl | hx'
    · exact le_trans (le_max_right a x) ih.1
    · exact ih.2 x hx'

theorem le_pythonMax {l : List ℝ} {x : ℝ} (hx : x ∈ l) : x ≤ pythonMax l := by
  rcases l with _ | ⟨y, ys⟩
  · exact absurd hx (by simp)
  · unfold pythonMax
    rcases List.mem_cons.mp hx with rfl | hx'
    · exact foldl_max_ge.1
    · exact foldl_max_ge.2 x hx'

theorem rescaleDict_bounds (m : List (ChunkKey × ℝ)) (h : ∀ p ∈ m, 0 ≤ p.2) :
    ∀ p ∈ rescaleDict m, 0 ≤ p.2 ∧ p.2 ≤ 1 := by
  intro p hp
  unfold rescaleDict at hp
  by_cases hm : m = []
  · rw [if_neg (by simp [hm])] at hp
    rw [hm] at hp
    exact absurd hp (by simp)
  · rw [if_pos hm] at hp
    by_cases hmx : pythonMax (m.map (fun p => p.2)) > 0
    · rw [if_pos hmx] at hp
      rcases List.mem_map.mp hp with ⟨q, hq, rfl⟩
      have hq2 : q.2 ≤ pythonMax (m.map (fun p => p.2)) :=
        le_pythonMax (List.mem_map.mpr ⟨q, hq, rfl⟩)
      constructor
      · exact div_nonneg (h q hq) (le_of_lt hmx)
      · rw [div_le_one hmx]
        exact hq2
    · rw [if_neg hmx] at hp
      have h0 : p.2 ≤ pythonMax (m.map (fun q => q.2)) :=
        le_pythonMax (List.mem_map.mpr ⟨p, hp, rfl⟩)
      have : p.2 = 0 := le_antisymm (le_trans h0 (le_of_not_lt hmx)) (h p hp)
      rw [this]
      norm_num

theorem dictGetD_zero_bounds {m : List (ChunkKey × ℝ)} (k : ChunkKey)
    (h : ∀ p ∈ m, 0 ≤ p.2 ∧ p.2 ≤ 1) : 0 ≤ dictGetD m k 0 ∧ dictGetD m k 0 ≤ 1 := by
  unfold dictGetD
  rcases hg : dictGet? m k with _ | v
  · simp
  · simp only [Option.getD_some]
    exact h (k, v) (mem_of_dictGet?_eq_some hg)

/-! ## Orchestrator unfolding lemmas and membership lemmas -/

theorem tower_error_def (did q : String) (k : ℕ) (m : SearchMethod)
    (msg : String) (qe : Option (List ℝ)) (sw kw : ℝ) :
    retrieve_chunks_from_tower did q k m true (Except.error msg) qe sw kw = [] := rfl

theorem tower_ok_def (did q : String) (k : ℕ) (m : SearchMethod)
    (all : List Chunk) (qe : Option (List ℝ)) (sw kw : ℝ) :
    retrieve_chunks_from_tower did q k m true (Except.ok all) qe sw kw =
      (let filtered := if did ≠ "" then
          all.filter (fun c => c.document_id = some did) else all
       match m with
       | SearchMethod.keyword => retrieve_chunks_simple q filtered k
       | SearchMethod.semantic =>
         if truthyEmb qe = false then retrieve_chunks_simple q filtered k
         else retrieve_chunks_semantic qe filtered k
       | SearchMethod.hybrid =>
         if truthyEmb qe = false then retrieve_chunks_simple q filtered k
         else retrieve_chunks_hybrid q qe filtered k sw kw) := rfl

theorem mem_chunk_simple {e : Scored} {q : String} {chunks : List Chunk} {k : ℕ}
    (h : e ∈ retrieve_chunks_simple q chunks k) : e.chunk ∈ chunks := by
  rcases mem_retrieve_chunks_simple h with ⟨c, hc, rfl⟩
  exact hc

theorem mem_chunk_semantic {e : Scored} {qe : Option (List ℝ)}
    {chunks : List Chunk} {k : ℕ}
    (h : e ∈ retrieve_chunks_semantic qe chunks k) : e.chunk ∈ chunks := by
  match qe with
  | none => exact absurd h (by simp [retrieve_chunks_semantic])
  | some [] => exact absurd h (by simp [retrieve_chunks_semantic])
  | some (q0 :: qs) =>
    rw [retrieve_chunks_semantic_cons] at h
    have hm := mem_of_mem_sortScoreDesc_take h
    rcases List.mem_filterMap.mp hm with ⟨c, hc, hfc⟩
    rcases hemb : c.embedding with _ | l
    · rw [hemb] at hfc; simp at hfc
    · rcases l with _ | ⟨x, xs⟩
      · rw [hemb] at hfc; simp at hfc
      · rw [hemb] at hfc
        simp only [Option.some.injEq] at hfc
        rw [← hfc]
        exact hc

theorem mem_mapBackChunks {e : Scored} {truthy : Bool}
    {semN kwN : List (ChunkKey × ℝ)} {cm : List (ChunkKey × Chunk)}
    {comb : List (ChunkKey × ℝ)} (h : e ∈ mapBackChunks truthy semN kwN cm comb) :
    ∃ p ∈ comb, dictGet? cm p.1 = some e.chunk ∧ e.score = p.2 := by
  unfold mapBackChunks at h
  rcases List.mem_filterMap.mp h with ⟨p, hp, hfp⟩
  rcases hg : dictGet? cm p.1 with _ | c
  · rw [hg] at hfp; simp at hfp
  · rw [hg] at hfp
    have he := Option.some.inj hfp
    refine ⟨p, hp, ?_, ?_⟩
    · rw [hg, ← he]
    · rw [← he]

theorem chunkMapOf_mem (chunks : List Chunk) :
    ∀ p ∈ chunkMapOf chunks, p.2 ∈ chunks ∧ chunkKey p.2 = p.1 := by
  have := foldl_upsert_pred (fun c : Chunk => chunkKey c) (fun c => c)
    (fun p => p.2 ∈ chunks ∧ chunkKey p.2 = p.1) chunks [] (by simp)
    (fun c hc => ⟨hc, rfl⟩)
  exact this

theorem mem_chunk_hybrid {e : Scored} {q : String} {qe : Option (List ℝ)}
    {chunks : List Chunk} {k : ℕ} {sw kw : ℝ}
    (h : e ∈ retrieve_chunks_hybrid q qe chunks k sw kw) : e.chunk ∈ chunks := by
  rw [retrieve_chunks_hybrid_def] at h
  have hm := mem_of_mem_sortScoreDesc_take h
  rcases mem_mapBackChunks hm with ⟨p, _, hget, _⟩
  exact (chunkMapOf_mem chunks _ (mem_of_dictGet?_eq_some hget)).1

/-! ## C6: store exceptions become the empty result -/

/-- C6.  An exception from the chunk store (modelled by `Except.error` as the
outcome of building the Tower store and reading it inside the orchestrator's
`try`) is absorbed: the orchestrator returns `[]`, and so does the agent-level
`retrieve_chunks`, for every method, query and configuration. -/
theorem store_errors_absorbed (did q claim : String) (k : ℕ) (m : SearchMethod)
    (msg : String) (qe : Option (List ℝ)) (sw kw : ℝ) (did2 : Option String) :
    retrieve_chunks_from_tower did q k m true (Except.error msg) qe sw kw = [] ∧
    agent_retrieve_chunks claim did2 k true (Except.error msg) qe sw kw = [] := by
  refine ⟨tower_error_def did q k m msg qe sw kw, ?_⟩
  unfold agent_retrieve_chunks
  by_cases h : truthyStr did2 = true
  · rw [if_pos h, tower_error_def]
    rfl
  · rw [if_neg h]

/-! ## C7: retrieval is deterministic -/

/-- C7.  In the embedding every retrieval function is a pure function of its
explicit inputs (query, optional embedding, chunk list, `top_k`, weights):
there is no hidden state, so two runs on identical inputs give identical
scored, ordered output.  (Within one Python process this matches the code:
scoring uses no randomness, and dict/set iteration order is fixed for fixed
inputs.) -/
theorem retrieval_deterministic (q : String) (qe : Option (List ℝ))
    (chunks : List Chunk) (k : ℕ) (sw kw : ℝ) :
    retrieve_chunks_simple q chunks k = retrieve_chunks_simple q chunks k ∧
    retrieve_chunks_semantic qe chunks k = retrieve_chunks_semantic qe chunks k ∧
    retrieve_chunks_hybrid q qe chunks k sw kw =
      retrieve_chunks_hybrid q qe chunks k sw kw :=
  ⟨rfl, rfl, rfl⟩

/-! ## C8: document scoping in the orchestrator -/

/-- The method-dispatch tail of the orchestrator, applied to the
document-scoped candidate list. -/
noncomputable def towerDispatch (q : String) (k : ℕ) (m : SearchMethod)
    (filtered : List Chunk) (qe : Option (List ℝ)) (sw kw : ℝ) : List Scored :=
  match m with
  | SearchMethod.keyword => retrieve_chunks_simple q filtered k
  | SearchMethod.semantic =>
    if truthyEmb qe = false then retrieve_chunks_simple q filtered k
    else retrieve_chunks_semantic qe filtered k
  | SearchMethod.hybrid =>
    if truthyEmb qe = false then retrieve_chunks_simple q filtered k
    else retrieve_chunks_hybrid q qe filtered k sw kw

theorem tower_ok_dispatch (did q : String) (k : ℕ) (m : SearchMethod)
    (all : List Chunk) (qe : Option (List ℝ)) (sw kw : ℝ) :
    retrieve_chunks_from_tower did q k m true (Except.ok all) qe sw kw =
      towerDispatch q k m
        (if did ≠ "" then all.filter (fun c => c.document_id = some did) else all)
        qe sw kw := rfl

theorem mem_chunk_towerDispatch {e : Scored} {q : String} {k : ℕ}
    {m : SearchMethod} {filtered : List Chunk} {qe : Option (List ℝ)} {sw kw : ℝ}
    (h : e ∈ towerDispatch q k m filtered qe sw kw) : e.chunk ∈ filtered := by
  cases m with
  | keyword => exact mem_chunk_simple h
  | semantic =>
    have hd : towerDispatch q k SearchMethod.semantic filtered qe sw kw =
        if truthyEmb qe = false then retrieve_chunks_simple q filtered k
        else retrieve_chunks_semantic qe filtered k := rfl
    rw [hd] at h
    by_cases ht : truthyEmb qe = false
    · rw [if_pos ht] at h
      exact mem_chunk_simple h
    · rw [if_neg ht] at h
      exact mem_chunk_semantic h
  | hybrid =>
    have hd : towerDispatch q k SearchMethod.hybrid filtered qe sw kw =
        if truthyEmb qe = false then retrieve_chunks_simple q filtered k
        else retrieve_chunks_hybrid q qe filtered k sw kw := rfl
    rw [hd] at h
    by_cases ht : truthyEmb qe = false
    · rw [if_pos ht] at h
      exact mem_chunk_simple h
    · rw [if_neg ht] at h
      exact mem_chunk_hybrid h

/-- C8.  With a truthy `document_id` the orchestrator scores only the chunks
whose `document_id` matches (filtering first is idempotent, and every
returned chunk carries the requested `document_id`); with no `document_id`
nothing is filtered and retrieval still runs on the full chunk list (shown
for the keyword method unconditionally and for the hybrid method with a
truthy embedding). -/
theorem tower_document_scoping (did q : String) (k : ℕ) (m : SearchMethod)
    (all : List Chunk) (qe : Option (List ℝ)) (sw kw : ℝ) :
    (did ≠ "" →
      retrieve_chunks_from_tower did q k m true (Except.ok all) qe sw kw =
        retrieve_chunks_from_tower did q k m true
          (Except.ok (all.filter (fun c => c.document_id = some did))) qe sw kw) ∧
    (did ≠ "" →
      ∀ e ∈ retrieve_chunks_from_tower did q k m true (Except.ok all) qe sw kw,
        e.chunk.document_id = some did) ∧
    (retrieve_chunks_from_tower "" q k SearchMethod.keyword true (Except.ok all)
        qe sw kw = retrieve_chunks_simple q all k) ∧
    (truthyEmb qe = true →
      retrieve_chunks_from_tower "" q k SearchMethod.hybrid true (Except.ok all)
        qe sw kw = retrieve_chunks_hybrid q qe all k sw kw) := by
  refine ⟨?_, ?_, ?_, ?_⟩
  · intro hdid
    rw [tower_ok_dispatch, tower_ok_dispatch, if_pos hdid, if_pos hdid]
    congr 1
    rw [eq_comm, List.filter_eq_self]
    intro c hc
    exact (List.mem_filter.mp hc).2
  · intro hdid e he
    rw [tower_ok_dispatch, if_pos hdid] at he
    have := mem_chunk_towerDispatch he
    have := (List.mem_filter.mp this).2
    simpa using this
  · rw [tower_ok_dispatch]
    rw [if_neg (by simp)]
    rfl
  · intro ht
    rw [tower_ok_dispatch]
    rw [if_neg (by simp)]
    have hd : towerDispatch q k SearchMethod.hybrid all qe sw kw =
        if truthyEmb qe = false then retrieve_chunks_simple q all k
        else retrieve_chunks_hybrid q qe all k sw kw := rfl
    rw [hd, if_neg (by simp [ht])]

/-! ## C1: hybrid weight normalization and score bounds -/

theorem zipWith_mul_nonneg : ∀ (v1 v2 : List ℝ), (∀ x ∈ v1, 0 ≤ x) →
    (∀ x ∈ v2, 0 ≤ x) → ∀ z ∈ List.zipWith (fun a b => a * b) v1 v2, 0 ≤ z := by
  intro v1
  induction v1 with
  | nil => intro v2 _ _ z hz; exact absurd hz (by simp)
  | cons a as ih =>
    intro v2 h1 h2 z hz
    rcases v2 with _ | ⟨b, bs⟩
    · exact absurd hz (by simp)
    · rw [List.zipWith_cons_cons] at hz
      rcases List.mem_cons.mp hz with rfl | hz'
      · exact mul_nonneg (h1 a (by simp)) (h2 b (by simp))
      · exact ih bs (fun x hx => h1 x (List.mem_cons_of_mem a hx))
          (fun x hx => h2 x (List.mem_cons_of_mem b hx)) z hz'

theorem npDot_nonneg (v1 v2 : List ℝ) (h1 : ∀ x ∈ v1, 0 ≤ x)
    (h2 : ∀ x ∈ v2, 0 ≤ x) : 0 ≤ npDot v1 v2 :=
  List.sum_nonneg (zipWith_mul_nonneg v1 v2 h1 h2)

theorem npNorm_nonneg (v : List ℝ) : 0 ≤ npNorm v := Real.sqrt_nonneg _

theorem cosine_nonneg (v1 v2 : List ℝ) (h1 : ∀ x ∈ v1, 0 ≤ x)
    (h2 : ∀ x ∈ v2, 0 ≤ x) : 0 ≤ _cosine_similarity v1 v2 := by
  rcases eq_or_ne v1 [] with rfl | hn1
  · rw [cosine_empty_left]
  rcases eq_or_ne v2 [] with rfl | hn2
  · rw [cosine_empty_right]
  have h1t : ∀ x ∈ v1.take (min v1.length v2.length), 0 ≤ x :=
    fun x hx => h1 x (List.mem_of_mem_take hx)
  have h2t : ∀ x ∈ v2.take (min v1.length v2.length), 0 ≤ x :=
    fun x hx => h2 x (List.mem_of_mem_take hx)
  by_cases hlen : v1.length = v2.length
  · rw [cosine_eq_length v1 v2 hlen hn1]
    by_cases hz : npNorm v1 = 0 ∨ npNorm v2 = 0
    · rw [if_pos hz]
    · rw [if_neg hz]
      exact div_nonneg (npDot_nonneg v1 v2 h1 h2)
        (mul_nonneg (npNorm_nonneg v1) (npNorm_nonneg v2))
  · rw [cosine_ne_length v1 v2 hn1 hn2 hlen]
    by_cases hz : npNorm (v1.take (min v1.length v2.length)) = 0 ∨
        npNorm (v2.take (min v1.length v2.length)) = 0
    · rw [if_pos hz]
    · rw [if_neg hz]
      exact div_nonneg (npDot_nonneg _ _ h1t h2t)
        (mul_nonneg (npNorm_nonneg _) (npNorm_nonneg _))

theorem semantic_scores_nonneg (qe : Option (List ℝ)) (chunks : List Chunk)
    (n : ℕ) (hqe : ∀ x ∈ qe.getD [], 0 ≤ x)
    (hch : ∀ c ∈ chunks, ∀ l, c.embedding = some l → ∀ x ∈ l, 0 ≤ x) :
    ∀ e ∈ retrieve_chunks_semantic qe chunks n, 0 ≤ e.score := by
  match qe with
  | none => intro e he; exact absurd he (by simp [retrieve_chunks_semantic])
  | some [] => intro e he; exact absurd he (by simp [retrieve_chunks_semantic])
  | some (q0 :: qs) =>
    intro e he
    rw [retrieve_chunks_semantic_cons] at he
    have hm := mem_of_mem_sortScoreDesc_take he
    rcases List.mem_filterMap.mp hm with ⟨c, hc, hfc⟩
    rcases hemb : c.embedding with _ | l
    · rw [hemb] at hfc; simp at hfc
    · rcases l with _ | ⟨x, xs⟩
      · rw [hemb] at hfc; simp at hfc
      · rw [hemb] at hfc
        simp only [Option.some.injEq] at hfc
        have hsc : e.score = _cosine_similarity (q0 :: qs) (x :: xs) := by
          rw [← hfc]
        rw [hsc]
        exact cosine_nonneg _ _ (by simpa using hqe) (hch c hc (x :: xs) hemb)

theorem keyword_results_nonneg (q : String) (chunks : List Chunk) (n : ℕ) :
    ∀ e ∈ retrieve_chunks_simple q chunks n, 0 ≤ e.score := by
  intro e he
  rcases mem_retrieve_chunks_simple he with ⟨c, _, rfl⟩
  exact keywordScore_nonneg _ _

theorem scoreDictOf_nonneg {results : List Scored}
    (h : ∀ r ∈ results, 0 ≤ r.score) : ∀ p ∈ scoreDictOf results, 0 ≤ p.2 := by
  unfold scoreDictOf
  exact foldl_upsert_pred (fun r => chunkKey r.chunk) (fun r => r.score)
    (fun p => 0 ≤ p.2) results [] (by simp) h

theorem normalizeWeights_facts (sw kw : ℝ) (h1 : 0 ≤ sw) (h2 : 0 ≤ kw)
    (h3 : 0 < sw + kw) :
    0 ≤ (normalizeWeights sw kw).1 ∧ 0 ≤ (normalizeWeights sw kw).2 ∧
      (normalizeWeights sw kw).1 + (normalizeWeights sw kw).2 = 1 := by
  unfold normalizeWeights
  rw [if_pos h3]
  refine ⟨div_nonneg h1 h3.le, div_nonneg h2 h3.le, ?_⟩
  rw [div_add_div_same, div_self (ne_of_gt h3)]

theorem combine_bound (s t w1 w2 : ℝ) (hs0 : 0 ≤ s) (hs1 : s ≤ 1)
    (ht0 : 0 ≤ t) (ht1 : t ≤ 1) (hw1 : 0 ≤ w1) (hw2 : 0 ≤ w2)
    (hsum : w1 + w2 = 1) : 0 ≤ s * w1 + t * w2 ∧ s * w1 + t * w2 ≤ 1 := by
  constructor
  · exact add_nonneg (mul_nonneg hs0 hw1) (mul_nonneg ht0 hw2)
  · calc s * w1 + t * w2 ≤ 1 * w1 + 1 * w2 :=
        add_le_add (mul_le_mul_of_nonneg_right hs1 hw1)
          (mul_le_mul_of_nonneg_right ht1 hw2)
    _ = 1 := by rw [one_mul, one_mul, hsum]

theorem mem_combineScores {p : ChunkKey × ℝ} {truthy : Bool} {w : ℝ × ℝ}
    {semN kwN : List (ChunkKey × ℝ)} (h : p ∈ combineScores truthy w semN kwN) :
    p.2 = (if truthy then dictGetD semN p.1 0 else 0) * w.1 +
      dictGetD kwN p.1 0 * w.2 := by
  unfold combineScores at h
  rcases List.mem_map.mp h with ⟨cid, _, rfl⟩
  rfl

/-- C1 (amended).  `retrieve_chunks_hybrid` renormalizes the two weights so
they sum to `1` whenever their sum is positive — in particular
`semantic_weight = 0.8, keyword_weight = 0.4` become `2/3` and `1/3` — and,
for nonnegative weights with positive sum, every combined score lies in
`[0,1]` provided every semantic similarity that arises is nonnegative (here:
all coordinates of the query embedding and of the chunk embeddings are
nonnegative; without that restriction a negative cosine similarity can drive
a combined score below `0`).  When both weights are `0` (sum `0`, so no
renormalization takes place and the weights stay `0`), every returned
combined score is `0`. -/
theorem hybrid_weight_normalization_and_bounds (q : String)
    (qe : Option (List ℝ)) (chunks : List Chunk) (k : ℕ) (sw kw : ℝ)
    (hsw : 0 ≤ sw) (hkw : 0 ≤ kw) (hpos : 0 < sw + kw)
    (hqe : ∀ x ∈ qe.getD [], 0 ≤ x)
    (hch : ∀ c ∈ chunks, ∀ l, c.embedding = some l → ∀ x ∈ l, 0 ≤ x) :
    normalizeWeights (0.8 : ℝ) (0.4 : ℝ) = (2/3, 1/3) ∧
    (∀ e ∈ retrieve_chunks_hybrid q qe chunks k sw kw,
      0 ≤ e.score ∧ e.score ≤ 1) ∧
    (∀ e ∈ retrieve_chunks_hybrid q qe chunks k 0 0, e.score = 0) := by
  refine ⟨?_, ?_, ?_⟩
  · unfold normalizeWeights
    rw [if_pos (by norm_num)]
    norm_num
  · intro e he
    rw [retrieve_chunks_hybrid_def] at he
    have hm := mem_of_mem_sortScoreDesc_take he
    rcases mem_mapBackChunks hm with ⟨p, hp, _, hscore⟩
    have hsem : ∀ r ∈ rescaleDict (if truthyEmb qe then
        scoreDictOf (retrieve_chunks_semantic qe chunks chunks.length) else []),
        0 ≤ r.2 ∧ r.2 ≤ 1 := by
      apply rescaleDict_bounds
      by_cases ht : truthyEmb qe = true
      · rw [if_pos ht]
        exact scoreDictOf_nonneg (semantic_scores_nonneg qe chunks chunks.length hqe hch)
      · rw [if_neg ht]
        simp
    have hkwd : ∀ r ∈ rescaleDict (scoreDictOf
        (retrieve_chunks_simple q chunks chunks.length)), 0 ≤ r.2 ∧ r.2 ≤ 1 := by
      apply rescaleDict_bounds
      exact scoreDictOf_nonneg (keyword_results_nonneg q chunks chunks.length)
    have hw := normalizeWeights_facts sw kw hsw hkw hpos
    rw [hscore, mem_combineScores hp]
    have hs := dictGetD_zero_bounds p.1 hsem
    have hkb := dictGetD_zero_bounds p.1 hkwd
    by_cases ht : truthyEmb qe = true
    · rw [if_pos ht]
      exact combine_bound _ _ _ _ hs.1 hs.2 hkb.1 hkb.2 hw.1 hw.2.1 hw.2.2
    · rw [if_neg ht]
      exact combine_bound _ _ _ _ (le_refl 0) (by norm_num) hkb.1 hkb.2
        hw.1 hw.2.1 hw.2.2
  · intro e he
    rw [retrieve_chunks_hybrid_def] at he
    have hm := mem_of_mem_sortScoreDesc_take he
    rcases mem_mapBackChunks hm with ⟨p, hp, _, hscore⟩
    have hw0 : normalizeWeights (0 : ℝ) (0 : ℝ) = (0, 0) := by
      unfold normalizeWeights
      rw [if_neg (by norm_num)]
    rw [hscore, mem_combineScores hp, hw0]
    simp

/-- Witness for the amended C1 at a concrete input. -/
theorem hybrid_weight_normalization_and_bounds_witness :
    normalizeWeights (0.8 : ℝ) (0.4 : ℝ) = (2/3, 1/3) :=
  (hybrid_weight_normalization_and_bounds "revenue" (some [1])
    [{ chunk_id := some "c1", document_id := none, content := "revenue", embedding := some [1] }]
    5 (0.8 : ℝ) (0.4 : ℝ) (by norm_num) (by norm_num) (by norm_num)
    (by intro x hx; simp at hx; rw [hx]; norm_num)
    (by
      intro c hc l hl x hx
      simp only [List.mem_singleton] at hc
      rw [hc] at hl
      simp only [Option.some.injEq] at hl
      rw [← hl] at hx
      simp only [List.mem_singleton] at hx
      rw [hx]
      norm_num)).1

/-- A chunk whose embedding has a negative coordinate. -/
noncomputable def cNeg : Chunk :=
  { chunk_id := some "c1", document_id := none, content := "", embedding := some [-1] }

theorem cosine_one_negone : _cosine_similarity [(1 : ℝ)] [(-1 : ℝ)] = -1 := by
  rw [cosine_eq_length [(1 : ℝ)] [(-1 : ℝ)] (by simp) (by simp)]
  have hn1 : npNorm [(1 : ℝ)] = 1 := by
    unfold npNorm
    norm_num [Real.sqrt_one]
  have hn2 : npNorm [(-1 : ℝ)] = 1 := by
    unfold npNorm
    norm_num [Real.sqrt_one]
  rw [hn1, hn2, if_neg (by norm_num)]
  unfold npDot
  norm_num

theorem keywordScore_cNeg : keywordScore (_tokenize "") cNeg = 0 := by
  rw [tokenize_empty_string]
  exact keywordScore_empty_query cNeg

/-- Counterexample to C1 as stated: with the spec's own example weights
`semantic_weight = 0.8, keyword_weight = 0.4` (positive sum), a query
embedding `[1]` and a single chunk with embedding `[-1]`, the returned
combined score is `-2/3 ∉ [0,1]` (the raw cosine similarity is `-1`; its
dict maximum is negative so no rescaling happens, and the weighted sum goes
negative). -/
theorem hybrid_bounds_counterexample :
    ¬ ∀ e ∈ retrieve_chunks_hybrid "" (some [1]) [cNeg] 5 (0.8 : ℝ) (0.4 : ℝ),
      0 ≤ e.score ∧ e.score ≤ 1 := by
  intro hall
  have hw : normalizeWeights (0.8 : ℝ) (0.4 : ℝ) = (2/3, 1/3) := by
    unfold normalizeWeights
    rw [if_pos (by norm_num)]
    norm_num
  have hsemdict : rescaleDict (if truthyEmb (some [(1 : ℝ)]) then
      scoreDictOf (retrieve_chunks_semantic (some [1]) [cNeg] [cNeg].length)
      else []) = [(Sum.inl "c1", (-1 : ℝ))] := by
    have h0 : (if truthyEmb (some [(1 : ℝ)]) then
        scoreDictOf (retrieve_chunks_semantic (some [1]) [cNeg] [cNeg].length)
        else []) = [(Sum.inl "c1", _cosine_similarity [(1 : ℝ)] [(-1 : ℝ)])] := rfl
    rw [h0, cosine_one_negone]
    unfold rescaleDict
    rw [if_pos (by simp)]
    rw [show pythonMax ([((Sum.inl "c1" : ChunkKey), (-1 : ℝ))].map (fun p => p.2)) = -1 from rfl]
    rw [if_neg (by norm_num)]
  have hkwdict : rescaleDict (scoreDictOf
      (retrieve_chunks_simple "" [cNeg] [cNeg].length)) = [(Sum.inl "c1", (0 : ℝ))] := by
    have h0 : scoreDictOf (retrieve_chunks_simple "" [cNeg] [cNeg].length) =
        [(Sum.inl "c1", keywordScore (_tokenize "") cNeg)] := rfl
    rw [h0, keywordScore_cNeg]
    unfold rescaleDict
    rw [if_pos (by simp)]
    rw [show pythonMax ([((Sum.inl "c1" : ChunkKey), (0 : ℝ))].map (fun p => p.2)) = 0 from rfl]
    rw [if_neg (by norm_num)]
  have hcomb : combineScores (truthyEmb (some [(1 : ℝ)]))
      (normalizeWeights (0.8 : ℝ) (0.4 : ℝ)) [(Sum.inl "c1", (-1 : ℝ))]
      [(Sum.inl "c1", (0 : ℝ))] =
      [(Sum.inl "c1", (-1) * ((2 : ℝ)/3) + 0 * ((1 : ℝ)/3))] := by
    have h0 : combineScores (truthyEmb (some [(1 : ℝ)]))
        (normalizeWeights (0.8 : ℝ) (0.4 : ℝ)) [(Sum.inl "c1", (-1 : ℝ))]
        [(Sum.inl "c1", (0 : ℝ))] =
        [(Sum.inl "c1", (-1) * (normalizeWeights (0.8 : ℝ) (0.4 : ℝ)).1 +
          0 * (normalizeWeights (0.8 : ℝ) (0.4 : ℝ)).2)] := rfl
    rw [h0, hw]
  have hhyb : retrieve_chunks_hybrid "" (some [1]) [cNeg] 5 (0.8 : ℝ) (0.4 : ℝ) =
      [{ chunk := cNeg, score := (-1) * ((2 : ℝ)/3) + 0 * ((1 : ℝ)/3),
         semantic_score := some (-1), keyword_score := some 0 }] := by
    rw [retrieve_chunks_hybrid_def, hsemdict, hkwdict, hcomb]
    rfl
  rw [hhyb] at hall
  have hb := hall _ (List.mem_singleton_self _)
  norm_num at hb

/-! ## C3: hybrid with no query embedding versus pure keyword retrieval -/

/-- The scored entry the keyword pass builds for one chunk. -/
noncomputable def kwEntry (query : String) (chunk : Chunk) : Scored :=
  { chunk := chunk, score := keywordScore (_tokenize query) chunk }

theorem retrieve_chunks_simple_def2 (query : String) (chunks : List Chunk) (k : ℕ) :
    retrieve_chunks_simple query chunks k =
      (sortScoreDesc (chunks.map (kwEntry query))).take k := rfl

theorem foldl_upsert_eq_append {α β : Type} (f : β → ChunkKey) (g : β → α)
    (l : List β) :
    ∀ m0 : List (ChunkKey × α), (l.map f).Nodup →
    (∀ b ∈ l, f b ∉ m0.map (fun p => p.1)) →
    l.foldl (fun m b => dictUpsert m (f b) (g b)) m0 =
      m0 ++ l.map (fun b => (f b, g b)) := by
  induction l with
  | nil => intro m0 _ _; simp
  | cons b l ih =>
    intro m0 hnd hfresh
    rw [List.foldl_cons]
    have hb : f b ∉ m0.map (fun p => p.1) := hfresh b (List.mem_cons_self b l)
    have hup : dictUpsert m0 (f b) (g b) = m0 ++ [(f b, g b)] := by
      unfold dictUpsert
      rw [if_neg]
      intro hany
      exact hb ((any_key_iff m0 (f b)).mp hany)
    rw [hup]
    rw [List.map_cons] at hnd
    have hfresh' : ∀ b' ∈ l, f b' ∉ (m0 ++ [(f b, g b)]).map (fun p => p.1) := by
      intro b' hb' hmem
      rw [List.map_append, List.mem_append] at hmem
      rcases hmem with hm | hm
      · exact hfresh b' (List.mem_cons_of_mem b hb') hm
      · simp only [List.map_cons, List.map_nil, List.mem_singleton] at hm
        exact (List.nodup_cons.mp hnd).1 (hm ▸ List.mem_map_of_mem f hb')
    rw [ih (m0 ++ [(f b, g b)]) (List.nodup_cons.mp hnd).2 hfresh']
    rw [List.append_assoc]
    rfl

theorem dictGet?_self_of_nodup {α : Type} {m : List (ChunkKey × α)}
    (hnd : (m.map (fun p => p.1)).Nodup) : ∀ p ∈ m, dictGet? m p.1 = some p.2 := by
  induction m with
  | nil => intro p hp; exact absurd hp (by simp)
  | cons q m ih =>
    intro p hp
    rw [List.map_cons, List.nodup_cons] at hnd
    rcases List.mem_cons.mp hp with rfl | hp'
    · rw [dictGet?_cons, if_pos rfl]
    · rw [dictGet?_cons, if_neg, ih hnd.2 p hp']
      intro hq
      exact hnd.1 (hq ▸ List.mem_map_of_mem (fun p => p.1) hp')

theorem rescaleDict_nil : rescaleDict [] = [] := by
  unfold rescaleDict
  rw [if_neg (by simp)]

theorem allChunkIds_nil_left (m : List (ChunkKey × ℝ)) :
    allChunkIds [] m = m.map (fun p => p.1) := by
  unfold allChunkIds
  simp

theorem scoreDictOf_eq_map {results : List Scored}
    (hnd : (results.map (fun r => chunkKey r.chunk)).Nodup) :
    scoreDictOf results = results.map (fun r => (chunkKey r.chunk, r.score)) := by
  unfold scoreDictOf
  have := foldl_upsert_eq_append (fun r : Scored => chunkKey r.chunk)
    (fun r => r.score) results [] hnd (by simp)
  simpa using this

theorem chunkMapOf_eq_map {chunks : List Chunk}
    (hnd : (chunks.map chunkKey).Nodup) :
    chunkMapOf chunks = chunks.map (fun c => (chunkKey c, c)) := by
  unfold chunkMapOf
  have := foldl_upsert_eq_append (fun c : Chunk => chunkKey c)
    (fun c => c) chunks [] (by simpa using hnd) (by simp)
  simpa using this

theorem chunkMapOf_get_self {chunks : List Chunk}
    (hnd : (chunks.map chunkKey).Nodup) {c : Chunk} (hc : c ∈ chunks) :
    dictGet? (chunkMapOf chunks) (chunkKey c) = some c := by
  rw [chunkMapOf_eq_map hnd]
  have hkeys : ((chunks.map (fun c => (chunkKey c, c))).map (fun p => p.1)).Nodup := by
    rw [List.map_map]
    simpa using hnd
  exact dictGet?_self_of_nodup hkeys (chunkKey c, c)
    (List.mem_map_of_mem (fun c => (chunkKey c, c)) hc)

theorem normalizeWeights_kw_pos (sw kw : ℝ) (h : 0 < kw) :
    0 < (normalizeWeights sw kw).2 := by
  unfold normalizeWeights
  by_cases ht : sw + kw > 0
  · rw [if_pos ht]
    exact div_pos h ht
  · rw [if_neg ht]
    exact h

/-- The hybrid output entry in the no-embedding case: keyword-only combined
score and fields. -/
noncomputable def kwOnlyEntry (w : ℝ × ℝ) (kwN : List (ChunkKey × ℝ))
    (r : Scored) : Scored :=
  { chunk := r.chunk,
    score := 0 * w.1 + dictGetD kwN (chunkKey r.chunk) 0 * w.2,
    semantic_score := none,
    keyword_score := some (dictGetD kwN (chunkKey r.chunk) 0) }

/-- C3 (amended).  With a falsy query embedding, a positive keyword weight,
and pairwise-distinct chunk identifiers, hybrid retrieval returns exactly the
chunks of pure keyword retrieval in the same order (the combined score is a
monotone rescaling of the keyword score, and the stable sort preserves the
keyword ranking). -/
theorem hybrid_no_embedding_matches_keyword (q : String) (qe : Option (List ℝ))
    (chunks : List Chunk) (k : ℕ) (sw kw : ℝ)
    (hqe : truthyEmb qe = false) (hkw : 0 < kw)
    (hnodup : (chunks.map chunkKey).Nodup) :
    (retrieve_chunks_hybrid q qe chunks k sw kw).map (fun e => e.chunk) =
      (retrieve_chunks_simple q chunks k).map (fun e => e.chunk) := by
  have hsimple_all : retrieve_chunks_simple q chunks chunks.length =
      sortScoreDesc (chunks.map (kwEntry q)) := by
    rw [retrieve_chunks_simple_def2]
    apply List.take_of_length_le
    rw [sortScoreDesc_length, List.length_map]
  set L := sortScoreDesc (chunks.map (kwEntry q)) with hLdef
  have hLperm : L.Perm (chunks.map (kwEntry q)) := sortScoreDesc_perm _
  have hLsorted : L.Sorted scoreGE := sortScoreDesc_sorted _
  have hLkeys : (L.map (fun r => chunkKey r.chunk)).Nodup := by
    have h1 := hLperm.map (fun r => chunkKey r.chunk)
    rw [List.map_map] at h1
    have h2 : ((fun (r : Scored) => chunkKey r.chunk) ∘ kwEntry q) = chunkKey := rfl
    rw [h2] at h1
    exact h1.nodup_iff.mpr hnodup
  have hφex : ∃ φ : ℝ → ℝ, (∀ x y : ℝ, x ≤ y → φ x ≤ φ y) ∧
      rescaleDict (scoreDictOf L) =
        L.map (fun r => (chunkKey r.chunk, φ r.score)) := by
    rw [scoreDictOf_eq_map hLkeys]
    by_cases hnil : L.map (fun r => (chunkKey r.chunk, r.score)) = []
    · refine ⟨id, fun x y h => h, ?_⟩
      have hL0 : L = [] := by
        rcases L with _ | ⟨r, rs⟩
        · rfl
        · exact absurd hnil (by simp)
      rw [hL0]
      simpa using rescaleDict_nil
    · unfold rescaleDict
      rw [if_pos hnil]
      by_cases hmx : pythonMax ((L.map (fun r =>
          (chunkKey r.chunk, r.score))).map (fun p => p.2)) > 0
      · rw [if_pos hmx]
        refine ⟨fun x => x / pythonMax ((L.map (fun r =>
          (chunkKey r.chunk, r.score))).map (fun p => p.2)), ?_, ?_⟩
        · intro x y hxy
          exact (div_le_div_iff_of_pos_right hmx).mpr hxy
        · rw [List.map_map]
          rfl
      · rw [if_neg hmx]
        exact ⟨id, fun x y h => h, rfl⟩
  obtain ⟨φ, hφmono, hφ⟩ := hφex
  have hw2 : 0 < (normalizeWeights sw kw).2 := normalizeWeights_kw_pos sw kw hkw
  have hkeys2 : ((L.map (fun r => (chunkKey r.chunk, φ r.score))).map
      (fun p => p.1)).Nodup := by
    rw [List.map_map]
    exact hLkeys
  have hgetφ : ∀ r ∈ L, dictGetD (L.map (fun r =>
      (chunkKey r.chunk, φ r.score))) (chunkKey r.chunk) 0 = φ r.score := by
    intro r hr
    unfold dictGetD
    rw [dictGet?_self_of_nodup hkeys2 (chunkKey r.chunk, φ r.score)
      (List.mem_map_of_mem _ hr)]
    rfl
  have hcomb : combineScores false (normalizeWeights sw kw) []
      (L.map (fun r => (chunkKey r.chunk, φ r.score))) =
      L.map (fun r => (chunkKey r.chunk,
        0 * (normalizeWeights sw kw).1 +
          dictGetD (L.map (fun r => (chunkKey r.chunk, φ r.score)))
            (chunkKey r.chunk) 0 * (normalizeWeights sw kw).2)) := by
    unfold combineScores
    rw [allChunkIds_nil_left, List.map_map, List.map_map]
    rfl
  have hrchunk : ∀ r ∈ L, r.chunk ∈ chunks := by
    intro r hr
    have hmem := hLperm.mem_iff.mp hr
    rcases List.mem_map.mp hmem with ⟨c, hc, rfl⟩
    exact hc
  have hmb : mapBackChunks false [] (L.map (fun r => (chunkKey r.chunk, φ r.score)))
      (chunkMapOf chunks)
      (L.map (fun r => (chunkKey r.chunk,
        0 * (normalizeWeights sw kw).1 +
          dictGetD (L.map (fun r => (chunkKey r.chunk, φ r.score)))
            (chunkKey r.chunk) 0 * (normalizeWeights sw kw).2))) =
      L.map (kwOnlyEntry (normalizeWeights sw kw)
        (L.map (fun r => (chunkKey r.chunk, φ r.score)))) := by
    unfold mapBackChunks
    rw [List.filterMap_map]
    rw [List.filterMap_congr (g := fun r => some (kwOnlyEntry (normalizeWeights sw kw)
      (L.map (fun r => (chunkKey r.chunk, φ r.score))) r))]
    · rw [show (fun r : Scored => some (kwOnlyEntry (normalizeWeights sw kw)
        (L.map (fun r => (chunkKey r.chunk, φ r.score))) r)) =
        some ∘ (kwOnlyEntry (normalizeWeights sw kw)
          (L.map (fun r => (chunkKey r.chunk, φ r.score)))) from rfl]
      rw [List.filterMap_eq_map]
    · intro r hr
      show (dictGet? (chunkMapOf chunks) (chunkKey r.chunk)).map _ = _
      rw [chunkMapOf_get_self hnodup (hrchunk r hr)]
      rfl
  have hsorted2 : (L.map (kwOnlyEntry (normalizeWeights sw kw)
      (L.map (fun r => (chunkKey r.chunk, φ r.score))))).Sorted scoreGE := by
    rw [List.Sorted, List.pairwise_map]
    apply List.Pairwise.imp_of_mem ?_ hLsorted
    intro a b ha hb hab
    show (kwOnlyEntry _ _ b).score ≤ (kwOnlyEntry _ _ a).score
    unfold kwOnlyEntry
    simp only
    rw [hgetφ a ha, hgetφ b hb]
    exact add_le_add_left
      (mul_le_mul_of_nonneg_right (hφmono _ _ hab) hw2.le) _
  rw [retrieve_chunks_hybrid_def, hqe]
  rw [if_neg (show ¬((false : Bool) = true) from by simp)]
  rw [rescaleDict_nil, hsimple_all, hφ, hcomb, hmb]
  rw [sortScoreDesc_eq_of_sorted hsorted2]
  rw [retrieve_chunks_simple_def2 q chunks k, ← hLdef]
  rw [← List.map_take, List.map_map]
  rfl

/-- Witness for the amended C3 at a concrete input. -/
theorem hybrid_no_embedding_matches_keyword_witness :
    (retrieve_chunks_hybrid "" none [cNeg] 5 (0.7 : ℝ) (0.3 : ℝ)).map
        (fun e => e.chunk) =
      (retrieve_chunks_simple "" [cNeg] 5).map (fun e => e.chunk) :=
  hybrid_no_embedding_matches_keyword "" none [cNeg] 5 (0.7 : ℝ) (0.3 : ℝ) rfl
    (by norm_num) (by simp)

/-- A chunk with identifier `"a"` whose content is `"alpha"`. -/
def cA : Chunk :=
  { chunk_id := some "a", document_id := none, content := "alpha", embedding := none }

/-- A chunk with identifier `"b"` whose content is `"beta"`. -/
def cB : Chunk :=
  { chunk_id := some "b", document_id := none, content := "beta", embedding := none }

/-- A chunk with no identifier and empty content (its key is the content
hash). -/
def cD : Chunk :=
  { chunk_id := none, document_id := none, content := "", embedding := none }

theorem keywordScore_alpha_cA : keywordScore (_tokenize "alpha") cA = 1 := by
  rw [keywordScore_eq]
  rw [show ((_tokenize "alpha" ∩ _tokenize cA.content).card) = 1 from by decide]
  rw [show (max (_tokenize "alpha").card 1) = 1 from by decide]
  norm_num

theorem keywordScore_alpha_cB : keywordScore (_tokenize "alpha") cB = 0 := by
  rw [keywordScore_eq]
  rw [show ((_tokenize "alpha" ∩ _tokenize cB.content).card) = 0 from by decide]
  norm_num

/-- Counterexample to C3 as stated: the claim quantifies over every weight
pair, but (i) with `keyword_weight = -1` the combined scores reverse the
keyword ranking, and (ii) with two chunks sharing an identifier the hybrid
output collapses them into one entry while keyword retrieval returns both, so
the outputs differ as ordered chunk sequences. -/
theorem hybrid_no_embedding_counterexample :
    (¬ ((retrieve_chunks_hybrid "alpha" none [cA, cB] 2 (0 : ℝ) (-1 : ℝ)).map
        (fun e => e.chunk) =
      (retrieve_chunks_simple "alpha" [cA, cB] 2).map (fun e => e.chunk))) ∧
    (¬ ((retrieve_chunks_hybrid "" none [cD, cD] 2 (1 : ℝ) (1 : ℝ)).map
        (fun e => e.chunk) =
      (retrieve_chunks_simple "" [cD, cD] 2).map (fun e => e.chunk))) := by
  constructor
  · -- (i): negative keyword weight reverses the ranking
    have hklist : [cA, cB].map (kwEntry "alpha") =
        [{ chunk := cA, score := 1 }, { chunk := cB, score := 0 }] := by
      simp [kwEntry, keywordScore_alpha_cA, keywordScore_alpha_cB]
    have hsorted : List.Sorted scoreGE
        [({ chunk := cA, score := 1 } : Scored), { chunk := cB, score := 0 }] := by
      simp [List.sorted_cons, scoreGE]
    have hsimp2 : retrieve_chunks_simple "alpha" [cA, cB] 2 =
        [{ chunk := cA, score := 1 }, { chunk := cB, score := 0 }] := by
      rw [retrieve_chunks_simple_def2, hklist, sortScoreDesc_eq_of_sorted hsorted]
      rfl
    have hw : normalizeWeights (0 : ℝ) (-1) = (0, -1) := by
      unfold normalizeWeights
      rw [if_neg (by norm_num)]
    have hmx1 : pythonMax (([((Sum.inl "a" : ChunkKey), (1 : ℝ)),
        (Sum.inl "b", 0)]).map (fun p => p.2)) = 1 := by
      show max (1 : ℝ) 0 = 1
      exact max_eq_left (by norm_num)
    have hresc : rescaleDict [((Sum.inl "a" : ChunkKey), (1 : ℝ)), (Sum.inl "b", 0)] =
        [((Sum.inl "a" : ChunkKey), (1 : ℝ)), (Sum.inl "b", 0)] := by
      unfold rescaleDict
      rw [if_pos (by simp), hmx1, if_pos (by norm_num)]
      norm_num
    have hcombval : combineScores false (normalizeWeights (0 : ℝ) (-1)) []
        [((Sum.inl "a" : ChunkKey), (1 : ℝ)), (Sum.inl "b", 0)] =
        [((Sum.inl "a" : ChunkKey), (-1 : ℝ)), (Sum.inl "b", 0)] := by
      have h0 : combineScores false (normalizeWeights (0 : ℝ) (-1)) []
          [((Sum.inl "a" : ChunkKey), (1 : ℝ)), (Sum.inl "b", 0)] =
          [((Sum.inl "a" : ChunkKey),
            0 * (normalizeWeights (0 : ℝ) (-1)).1 + 1 * (normalizeWeights (0 : ℝ) (-1)).2),
           ((Sum.inl "b" : ChunkKey),
            0 * (normalizeWeights (0 : ℝ) (-1)).1 + 0 * (normalizeWeights (0 : ℝ) (-1)).2)] := rfl
      rw [h0, hw]
      norm_num
    have hhyb : retrieve_chunks_hybrid "alpha" none [cA, cB] 2 (0 : ℝ) (-1 : ℝ) =
        [{ chunk := cB, score := 0, semantic_score := none, keyword_score := some 0 },
         { chunk := cA, score := -1, semantic_score := none, keyword_score := some 1 }] := by
      rw [retrieve_chunks_hybrid_def]
      rw [show truthyEmb none = false from rfl]
      rw [if_neg (show ¬((false : Bool) = true) from by simp)]
      rw [rescaleDict_nil]
      rw [show scoreDictOf (retrieve_chunks_simple "alpha" [cA, cB] [cA, cB].length) =
        scoreDictOf [({ chunk := cA, score := 1 } : Scored), { chunk := cB, score := 0 }] from by
          rw [show [cA, cB].length = 2 from rfl, hsimp2]]
      rw [show scoreDictOf [({ chunk := cA, score := 1 } : Scored), { chunk := cB, score := 0 }] =
        [((Sum.inl "a" : ChunkKey), (1 : ℝ)), (Sum.inl "b", 0)] from rfl]
      rw [hresc, hcombval]
      rw [show mapBackChunks false [] [((Sum.inl "a" : ChunkKey), (1 : ℝ)), (Sum.inl "b", 0)]
          (chunkMapOf [cA, cB])
          [((Sum.inl "a" : ChunkKey), (-1 : ℝ)), (Sum.inl "b", 0)] =
          [{ chunk := cA, score := -1, semantic_score := none, keyword_score := some 1 },
           { chunk := cB, score := 0, semantic_score := none, keyword_score := some 0 }] from rfl]
      have hs1 : sortScoreDesc
          [{ chunk := cA, score := -1, semantic_score := none, keyword_score := some 1 },
           { chunk := cB, score := 0, semantic_score := none, keyword_score := some 0 }] =
          [{ chunk := cB, score := 0, semantic_score := none, keyword_score := some 0 },
           { chunk := cA, score := -1, semantic_score := none, keyword_score := some 1 }] := by
        unfold sortScoreDesc
        simp only [List.insertionSort, List.orderedInsert]
        rw [if_neg (show ¬ scoreGE
          ({ chunk := cA, score := -1, semantic_score := none, keyword_score := some 1 } : Scored)
          ({ chunk := cB, score := 0, semantic_score := none, keyword_score := some 0 } : Scored) from by
            unfold scoreGE
            norm_num)]
      rw [hs1]
      rfl
    intro hcontra
    rw [hhyb, hsimp2] at hcontra
    simp only [List.map_cons, List.map_nil] at hcontra
    have := congrArg (List.map (fun c => c.chunk_id)) hcontra
    simp [cA, cB] at this
  · -- (ii): duplicate identifiers collapse in hybrid output
    have hs0 : keywordScore (_tokenize "") cD = 0 := by
      rw [tokenize_empty_string]
      exact keywordScore_empty_query cD
    have hklist0 : [cD, cD].map (kwEntry "") =
        [{ chunk := cD, score := 0 }, { chunk := cD, score := 0 }] := by
      simp [kwEntry, hs0]
    have hsorted0 : List.Sorted scoreGE
        [({ chunk := cD, score := 0 } : Scored), { chunk := cD, score := 0 }] := by
      simp [List.sorted_cons, scoreGE]
    have hsimp0 : retrieve_chunks_simple "" [cD, cD] 2 =
        [{ chunk := cD, score := 0 }, { chunk := cD, score := 0 }] := by
      rw [retrieve_chunks_simple_def2, hklist0, sortScoreDesc_eq_of_sorted hsorted0]
      rfl
    have hresc0 : rescaleDict [((Sum.inr "" : ChunkKey), (0 : ℝ))] =
        [((Sum.inr "" : ChunkKey), (0 : ℝ))] := by
      unfold rescaleDict
      rw [if_pos (by simp)]
      rw [show pythonMax (([((Sum.inr "" : ChunkKey), (0 : ℝ))]).map (fun p => p.2)) = 0 from rfl]
      rw [if_neg (by norm_num)]
    have hhyb0 : retrieve_chunks_hybrid "" none [cD, cD] 2 (1 : ℝ) (1 : ℝ) =
        [{ chunk := cD,
           score := 0 * (normalizeWeights (1 : ℝ) (1 : ℝ)).1 +
             0 * (normalizeWeights (1 : ℝ) (1 : ℝ)).2,
           semantic_score := none, keyword_score := some 0 }] := by
      rw [retrieve_chunks_hybrid_def]
      rw [show truthyEmb none = false from rfl]
      rw [if_neg (show ¬((false : Bool) = true) from by simp)]
      rw [rescaleDict_nil]
      rw [show scoreDictOf (retrieve_chunks_simple "" [cD, cD] [cD, cD].length) =
        scoreDictOf [({ chunk := cD, score := 0 } : Scored), { chunk := cD, score := 0 }] from by
          rw [show [cD, cD].length = 2 from rfl, hsimp0]]
      rw [show scoreDictOf [({ chunk := cD, score := 0 } : Scored), { chunk := cD, score := 0 }] =
        [((Sum.inr "" : ChunkKey), (0 : ℝ))] from rfl]
      rw [hresc0]
      rfl
    intro hcontra
    rw [hhyb0, hsimp0] at hcontra
    have := congrArg List.length hcontra
    simp at this

/-! ## C10: identifier uniqueness and last-occurrence collapse in hybrid output -/

/-- The last chunk of the input list carrying a given identifier. -/
def lastWithKey (chunks : List Chunk) (κ : ChunkKey) : Option Chunk :=
  chunks.reverse.find? (fun c => decide (chunkKey c = κ))

theorem chunkMapOf_get_eq_last (chunks : List Chunk) (κ : ChunkKey) :
    dictGet? (chunkMapOf chunks) κ = lastWithKey chunks κ := by
  unfold chunkMapOf lastWithKey
  suffices h : ∀ m0 : List (ChunkKey × Chunk),
      dictGet? (chunks.foldl (fun m c => dictUpsert m (chunkKey c) c) m0) κ =
        match chunks.reverse.find? (fun c => decide (chunkKey c = κ)) with
        | some c => some c
        | none => dictGet? m0 κ by
    rw [h []]
    rcases chunks.reverse.find? (fun c => decide (chunkKey c = κ)) with _ | c
    · rfl
    · rfl
  induction chunks with
  | nil => intro m0; rfl
  | cons b l ih =>
    intro m0
    rw [List.foldl_cons, ih, List.reverse_cons, List.find?_append]
    rcases hf : l.reverse.find? (fun c => decide (chunkKey c = κ)) with _ | c
    · rw [dictGet?_upsert]
      by_cases hb : chunkKey b = κ
      · rw [if_pos hb.symm]
        rw [List.find?_cons_of_pos _ (by simp [hb])]
        rfl
      · rw [if_neg (fun h => hb h.symm)]
        rw [List.find?_cons_of_neg _ (by simp [hb]), List.find?_nil]
        rfl
    · rfl

theorem rescaleDict_keys (m : List (ChunkKey × ℝ)) :
    (rescaleDict m).map (fun p => p.1) = m.map (fun p => p.1) := by
  unfold rescaleDict
  by_cases hm : m ≠ []
  · rw [if_pos hm]
    by_cases hmx : pythonMax (m.map (fun p => p.2)) > 0
    · rw [if_pos hmx, List.map_map]
      rfl
    · rw [if_neg hmx]
  · rw [if_neg hm]

theorem scoreDictOf_keys_nodup (results : List Scored) :
    ((scoreDictOf results).map (fun p => p.1)).Nodup := by
  unfold scoreDictOf
  exact foldl_upsert_nodup_keys (fun r : Scored => chunkKey r.chunk)
    (fun r => r.score) results [] (by simp)

theorem allChunkIds_nodup (semN kwN : List (ChunkKey × ℝ))
    (hsem : (semN.map (fun p => p.1)).Nodup)
    (hkw : (kwN.map (fun p => p.1)).Nodup) :
    (allChunkIds semN kwN).Nodup := by
  unfold allChunkIds
  rw [List.nodup_append]
  refine ⟨hsem, hkw.filter _, ?_⟩
  intro κ hκ hκ2
  have hfilter := List.of_mem_filter hκ2
  simp only [Bool.not_eq_true'] at hfilter
  rw [List.any_eq_false] at hfilter
  exact hfilter κ hκ (by simp)

theorem combineScores_keys (truthy : Bool) (w : ℝ × ℝ)
    (semN kwN : List (ChunkKey × ℝ)) :
    (combineScores truthy w semN kwN).map (fun p => p.1) = allChunkIds semN kwN := by
  unfold combineScores
  rw [List.map_map]
  exact List.map_id _

/-- One step of the map-back loop, named so that goals stay readable. -/
noncomputable def mapBackFn (truthy : Bool) (semN kwN : List (ChunkKey × ℝ))
    (cm : List (ChunkKey × Chunk)) (p : ChunkKey × ℝ) : Option Scored :=
  (dictGet? cm p.1).map (fun c =>
    { chunk := c, score := p.2,
      semantic_score := if truthy then some (dictGetD semN p.1 0) else none,
      keyword_score := some (dictGetD kwN p.1 0) })

theorem mapBackChunks_eq_filterMap (truthy : Bool)
    (semN kwN : List (ChunkKey × ℝ)) (cm : List (ChunkKey × Chunk))
    (comb : List (ChunkKey × ℝ)) :
    mapBackChunks truthy semN kwN cm comb =
      comb.filterMap (mapBackFn truthy semN kwN cm) := rfl

theorem mapBackFn_key {truthy : Bool} {semN kwN : List (ChunkKey × ℝ)}
    {cm : List (ChunkKey × Chunk)} {p : ChunkKey × ℝ} {e : Scored}
    (hcm : ∀ p ∈ cm, chunkKey p.2 = p.1)
    (h : mapBackFn truthy semN kwN cm p = some e) : chunkKey e.chunk = p.1 := by
  unfold mapBackFn at h
  rcases hg : dictGet? cm p.1 with _ | c
  · rw [hg] at h
    exact absurd h (by simp)
  · rw [hg] at h
    have he := Option.some.inj h
    have hk : chunkKey c = p.1 := hcm (p.1, c) (mem_of_dictGet?_eq_some hg)
    rw [← he]
    exact hk

theorem mapBack_keys_sublist (truthy : Bool) (semN kwN : List (ChunkKey × ℝ))
    (cm : List (ChunkKey × Chunk)) (comb : List (ChunkKey × ℝ))
    (hcm : ∀ p ∈ cm, chunkKey p.2 = p.1) :
    ((mapBackChunks truthy semN kwN cm comb).map
      (fun e => chunkKey e.chunk)).Sublist (comb.map (fun p => p.1)) := by
  rw [mapBackChunks_eq_filterMap]
  induction comb with
  | nil => simp
  | cons p l ih =>
    rw [List.filterMap_cons, List.map_cons]
    rcases hg : mapBackFn truthy semN kwN cm p with _ | e
    · exact ih.cons p.1
    · rw [List.map_cons, mapBackFn_key hcm hg]
      exact ih.cons₂ p.1

theorem hybrid_dup_length :
    (retrieve_chunks_hybrid "" none [cD, cD] 5 (0.7 : ℝ) (0.3 : ℝ)).length = 1 := by
  have hs0 : keywordScore (_tokenize "") cD = 0 := by
    rw [tokenize_empty_string]
    exact keywordScore_empty_query cD
  have hklist0 : [cD, cD].map (kwEntry "") =
      [{ chunk := cD, score := 0 }, { chunk := cD, score := 0 }] := by
    simp [kwEntry, hs0]
  have hsorted0 : List.Sorted scoreGE
      [({ chunk := cD, score := 0 } : Scored), { chunk := cD, score := 0 }] := by
    simp [List.sorted_cons, scoreGE]
  have hsimp0 : retrieve_chunks_simple "" [cD, cD] 2 =
      [{ chunk := cD, score := 0 }, { chunk := cD, score := 0 }] := by
    rw [retrieve_chunks_simple_def2, hklist0, sortScoreDesc_eq_of_sorted hsorted0]
    rfl
  have hresc0 : rescaleDict [((Sum.inr "" : ChunkKey), (0 : ℝ))] =
      [((Sum.inr "" : ChunkKey), (0 : ℝ))] := by
    unfold rescaleDict
    rw [if_pos (by simp)]
    rw [show pythonMax (([((Sum.inr "" : ChunkKey), (0 : ℝ))]).map (fun p => p.2)) = 0 from rfl]
    rw [if_neg (by norm_num)]
  rw [retrieve_chunks_hybrid_def]
  rw [show truthyEmb none = false from rfl]
  rw [if_neg (show ¬((false : Bool) = true) from by simp)]
  rw [rescaleDict_nil]
  rw [show scoreDictOf (retrieve_chunks_simple "" [cD, cD] [cD, cD].length) =
    scoreDictOf [({ chunk := cD, score := 0 } : Scored), { chunk := cD, score := 0 }] from by
      rw [show [cD, cD].length = 2 from rfl, hsimp0]]
  rw [show scoreDictOf [({ chunk := cD, score := 0 } : Scored), { chunk := cD, score := 0 }] =
    [((Sum.inr "" : ChunkKey), (0 : ℝ))] from rfl]
  rw [hresc0]
  rfl

/-- C10.  Each identifier (the chunk's `chunk_id`, or the hash of its content
when `chunk_id` is absent or falsy) occurs at most once in the hybrid output;
every returned entry carries the fields of the last input chunk with its
identifier; and with two input chunks sharing an identifier the output has
fewer entries than `min top_k |chunks|` (concretely: two identical chunks,
`top_k = 5`, output length `1 < 2`). -/
theorem hybrid_identifier_uniqueness (q : String) (qe : Option (List ℝ))
    (chunks : List Chunk) (k : ℕ) (sw kw : ℝ) :
    ((retrieve_chunks_hybrid q qe chunks k sw kw).map
      (fun e => chunkKey e.chunk)).Nodup ∧
    (∀ e ∈ retrieve_chunks_hybrid q qe chunks k sw kw,
      lastWithKey chunks (chunkKey e.chunk) = some e.chunk) ∧
    (retrieve_chunks_hybrid "" none [cD, cD] 5 (0.7 : ℝ) (0.3 : ℝ)).length <
      min 5 ([cD, cD].length) := by
  refine ⟨?_, ?_, ?_⟩
  · rw [retrieve_chunks_hybrid_def]
    have hsemnd : ((rescaleDict (if truthyEmb qe then
        scoreDictOf (retrieve_chunks_semantic qe chunks chunks.length)
        else [])).map (fun p => p.1)).Nodup := by
      rw [rescaleDict_keys]
      by_cases ht : truthyEmb qe = true
      · rw [if_pos ht]
        exact scoreDictOf_keys_nodup _
      · rw [if_neg ht]
        simp
    have hkwnd : ((rescaleDict (scoreDictOf
        (retrieve_chunks_simple q chunks chunks.length))).map (fun p => p.1)).Nodup := by
      rw [rescaleDict_keys]
      exact scoreDictOf_keys_nodup _
    have hids := allChunkIds_nodup _ _ hsemnd hkwnd
    have hcombnd : ((combineScores (truthyEmb qe) (normalizeWeights sw kw)
        (rescaleDict (if truthyEmb qe then
          scoreDictOf (retrieve_chunks_semantic qe chunks chunks.length) else []))
        (rescaleDict (scoreDictOf (retrieve_chunks_simple q chunks
          chunks.length)))).map (fun p => p.1)).Nodup := by
      rw [combineScores_keys]
      exact hids
    have hcm : ∀ p ∈ chunkMapOf chunks, chunkKey p.2 = p.1 :=
      fun p hp => (chunkMapOf_mem chunks p hp).2
    have hsub := mapBack_keys_sublist (truthyEmb qe)
      (rescaleDict (if truthyEmb qe then
        scoreDictOf (retrieve_chunks_semantic qe chunks chunks.length) else []))
      (rescaleDict (scoreDictOf (retrieve_chunks_simple q chunks chunks.length)))
      (chunkMapOf chunks)
      (combineScores (truthyEmb qe) (normalizeWeights sw kw)
        (rescaleDict (if truthyEmb qe then
          scoreDictOf (retrieve_chunks_semantic qe chunks chunks.length) else []))
        (rescaleDict (scoreDictOf (retrieve_chunks_simple q chunks chunks.length))))
      hcm
    have hscorednd := List.Nodup.sublist hsub hcombnd
    have hperm := (sortScoreDesc_perm (mapBackChunks (truthyEmb qe)
      (rescaleDict (if truthyEmb qe then
        scoreDictOf (retrieve_chunks_semantic qe chunks chunks.length) else []))
      (rescaleDict (scoreDictOf (retrieve_chunks_simple q chunks chunks.length)))
      (chunkMapOf chunks)
      (combineScores (truthyEmb qe) (normalizeWeights sw kw)
        (rescaleDict (if truthyEmb qe then
          scoreDictOf (retrieve_chunks_semantic qe chunks chunks.length) else []))
        (rescaleDict (scoreDictOf (retrieve_chunks_simple q chunks
          chunks.length)))))).map (fun e => chunkKey e.chunk)
    have hsortnd := hperm.nodup_iff.mpr hscorednd
    exact List.Nodup.sublist ((List.take_sublist k _).map _) hsortnd
  · intro e he
    rw [retrieve_chunks_hybrid_def] at he
    have hm := mem_of_mem_sortScoreDesc_take he
    rcases mem_mapBackChunks hm with ⟨p, _, hget, _⟩
    have hk : chunkKey e.chunk = p.1 :=
      (chunkMapOf_mem chunks (p.1, e.chunk) (mem_of_dictGet?_eq_some hget)).2
    rw [hk, ← chunkMapOf_get_eq_last]
    exact hget
  · rw [hybrid_dup_length]
    norm_num
